import Mathlib

/-! # pitch_detector: `src/App.js`

A shallow embedding of the numeric pipeline of the `App` component
(`getNote`, `cFrequencies`, `logScale`, `calculateRMS`, `updatePitch` and the
note text of the pitch label) together with the properties of it that are
checked against the specification.

A JavaScript number is `NaN`, `-Infinity`, `Infinity` or a finite real (zero is
unsigned), with the behaviour ECMAScript gives the non-finite values in the
operations the component uses.  The numeric functions are given in two readings:

* over real arithmetic, where every operation is exact (`getNote`, `logScale`,
  `calculateRMS`, `loudness`, `updatePitch`);
* in binary64, where the result of every operation is rounded to the nearest
  binary64 value (`getNote64`, `logScale64`, `calculateRMS64`, `loudness64`).

The gates and the window of `updatePitch` only compare and copy numbers, so what
is proved of them holds whatever reading produced the numbers.  Properties that
state an exact value of a logarithm, a square root or a quotient are proved over
real arithmetic, and the binary64 reading shows where rounding breaks them.
-/

set_option autoImplicit false

namespace PitchDetector

/-! ## JavaScript numbers -/

/-- A JavaScript number whose finite values are taken from `α`
(`ℝ` for general numbers, `ℤ` for numbers known to be integral). -/
inductive JSVal (α : Type) where
  | nan : JSVal α
  | negInf : JSVal α
  | posInf : JSVal α
  | fin (x : α) : JSVal α
deriving DecidableEq

/-- A general JavaScript number. -/
abbrev JSNum := JSVal ℝ

/-- A JavaScript number that is integral whenever it is finite. -/
abbrev JSInt := JSVal ℤ

namespace JSVal

variable {α : Type}

/-- The relational operator `a > b` of JavaScript: false as soon as one side is `NaN`. -/
def gt [LT α] : JSVal α → JSVal α → Prop
  | nan, _ => False
  | _, nan => False
  | negInf, _ => False
  | _, posInf => False
  | posInf, _ => True
  | fin _, negInf => True
  | fin x, fin y => y < x

/-- The relational operator `a <= b` of JavaScript: false as soon as one side is `NaN`. -/
def le [LE α] : JSVal α → JSVal α → Prop
  | nan, _ => False
  | _, nan => False
  | negInf, _ => True
  | _, posInf => True
  | posInf, _ => False
  | fin _, negInf => False
  | fin x, fin y => x ≤ y

instance instDecidableGt [LT α] [DecidableRel (fun (x y : α) => x < y)] (a b : JSVal α) :
    Decidable (gt a b) := by
  cases a <;> cases b <;> unfold gt <;> infer_instance

instance instDecidableLe [LE α] [DecidableRel (fun (x y : α) => x ≤ y)] (a b : JSVal α) :
    Decidable (le a b) := by
  cases a <;> cases b <;> unfold le <;> infer_instance

end JSVal

/-! ### Arithmetic on general numbers

The four operators follow IEEE 754 on the non-finite values.  Zero is
unsigned here, so `x / 0` takes the sign of `x` alone; every divisor the
component uses (`c0`, `12`, `buffer.length`, `logMax - logMin`) is
non-negative. -/

noncomputable section

namespace JSVal

/-- The unary minus operator. -/
def neg : JSNum → JSNum
  | nan => nan
  | negInf => posInf
  | posInf => negInf
  | fin x => fin (-x)

/-- The operator `a + b` on numbers. -/
def add : JSNum → JSNum → JSNum
  | nan, _ => nan
  | _, nan => nan
  | posInf, negInf => nan
  | negInf, posInf => nan
  | posInf, _ => posInf
  | _, posInf => posInf
  | negInf, _ => negInf
  | _, negInf => negInf
  | fin x, fin y => fin (x + y)

/-- The value `x * Infinity` for a finite `x`. -/
def signedInf (x : ℝ) : JSNum :=
  if 0 < x then posInf else if x < 0 then negInf else nan

/-- The operator `a * b`. -/
def mul : JSNum → JSNum → JSNum
  | nan, _ => nan
  | _, nan => nan
  | fin x, fin y => fin (x * y)
  | fin x, posInf => signedInf x
  | fin x, negInf => signedInf (-x)
  | posInf, fin y => signedInf y
  | negInf, fin y => signedInf (-y)
  | posInf, posInf => posInf
  | negInf, negInf => posInf
  | posInf, negInf => negInf
  | negInf, posInf => negInf

/-- The operator `a / b`. -/
def div : JSNum → JSNum → JSNum
  | nan, _ => nan
  | _, nan => nan
  | fin x, fin y => if y = 0 then signedInf x else fin (x / y)
  | fin _, posInf => fin 0
  | fin _, negInf => fin 0
  | posInf, fin y => if 0 ≤ y then posInf else negInf
  | negInf, fin y => if 0 ≤ y then negInf else posInf
  | posInf, posInf => nan
  | posInf, negInf => nan
  | negInf, posInf => nan
  | negInf, negInf => nan

instance : Neg JSNum := ⟨neg⟩
instance : Add JSNum := ⟨add⟩
instance : Sub JSNum := ⟨fun a b => add a (neg b)⟩
instance : Mul JSNum := ⟨mul⟩
instance : Div JSNum := ⟨div⟩

/-- An integral number read as a general number. -/
def toNum : JSInt → JSNum
  | nan => nan
  | negInf => negInf
  | posInf => posInf
  | fin n => fin (n : ℝ)

/-- The operator `a % b` on integral numbers: the remainder takes the sign of the dividend. -/
def rem : JSInt → JSInt → JSInt
  | nan, _ => nan
  | _, nan => nan
  | posInf, _ => nan
  | negInf, _ => nan
  | fin x, posInf => fin x
  | fin x, negInf => fin x
  | fin x, fin y => if y = 0 then nan else fin (Int.tmod x y)

/-- The conversion `ToString` on integral numbers, as string concatenation applies it. -/
def toStr : JSInt → String
  | nan => "NaN"
  | negInf => "-Infinity"
  | posInf => "Infinity"
  | fin n => toString n

end JSVal

/-! ### The functions of the `Math` object that the component calls -/

namespace Math

open JSVal

/-- A logarithm of JavaScript built on the real logarithm `L`:
`NaN` on negative arguments, `-Infinity` at zero. -/
def logWith (L : ℝ → ℝ) : JSNum → JSNum
  | nan => nan
  | negInf => nan
  | posInf => posInf
  | fin x => if x < 0 then nan else if x = 0 then negInf else fin (L x)

/-- `Math.log`, the natural logarithm. -/
def log : JSNum → JSNum := logWith Real.log

/-- `Math.log2`. -/
def log2 : JSNum → JSNum := logWith (Real.logb 2)

/-- `Math.log10`. -/
def log10 : JSNum → JSNum := logWith (Real.logb 10)

/-- `Math.sqrt`. -/
def sqrt : JSNum → JSNum
  | nan => nan
  | negInf => nan
  | posInf => posInf
  | fin x => if x < 0 then nan else fin (Real.sqrt x)

/-- `Math.round`: the nearest integer, halves rounded towards `+Infinity`. -/
def round : JSNum → JSInt
  | nan => nan
  | negInf => negInf
  | posInf => posInf
  | fin x => fin ⌊x + 1 / 2⌋

/-- `Math.floor`. -/
def floor : JSNum → JSInt
  | nan => nan
  | negInf => negInf
  | posInf => posInf
  | fin x => fin ⌊x⌋

/-- `Math.max` of two numbers. -/
def max : JSNum → JSNum → JSNum
  | nan, _ => nan
  | _, nan => nan
  | posInf, _ => posInf
  | _, posInf => posInf
  | negInf, b => b
  | a, negInf => a
  | fin x, fin y => fin (Max.max x y)

/-- `Math.pow(2, n)` for a natural exponent. -/
def pow2 (n : Nat) : ℝ := 2 ^ n

end Math

end

/-! ## The rolling sample window (`[...prevData, sample].slice(-200)`) -/

/-- `Array.prototype.slice(-n)`: the last `n` elements, the whole array when it is shorter. -/
def sliceLast {α : Type} (n : Nat) (xs : List α) : List α :=
  xs.drop (xs.length - n)

/-- The updater passed to `setGraphData`: `prevData => [...prevData, sample].slice(-200)`. -/
def pushSample {α : Type} (prevData : List α) (sample : α) : List α :=
  sliceLast 200 (prevData ++ [sample])

/-! ## The component `App` -/

noncomputable section

open JSVal

/-- The constant `marginTop`. -/
def marginTop : ℝ := 20

/-- The constant `marginBottom`. -/
def marginBottom : ℝ := 20

/-- The table `notes` of `getNote`. -/
def notes : List String :=
  ["C", "C#", "D", "D#", "E", "F", "F#", "G", "G#", "A", "A#", "B"]

/-- The property access `notes[noteIndex]`: an element for an index in `0..11`,
`undefined` (here `none`) for every other number. -/
def notesAt : JSInt → Option String
  | fin (Int.ofNat n) => notes[n]?
  | _ => none

/-- What `getNote` returns: a string, or the number that `+` produces when the
looked-up name is `undefined`. -/
inductive NoteValue where
  | str (s : String) : NoteValue
  | num (n : JSInt) : NoteValue
deriving DecidableEq

/-- The operator `name + octave` of `getNote`: string concatenation when `name`
is a string; when it is `undefined` both sides are converted to numbers and
`undefined` becomes `NaN`, so the sum is `NaN`. -/
def plus : Option String → JSInt → NoteValue
  | some name, octave => NoteValue.str (name ++ toStr octave)
  | none, _ => NoteValue.num nan

/-- The half-step count of `getNote`:
`Math.round(12 * Math.log2(frequency / c0))` with `c0 = 16.35`. -/
def halfSteps (frequency : JSNum) : JSInt :=
  let c0 : JSNum := fin 16.35
  Math.round (fin 12 * Math.log2 (frequency / c0))

/-- The function `getNote(frequency)`. -/
def getNote (frequency : JSNum) : NoteValue :=
  let halfStepsBelowMiddleC := halfSteps frequency
  let octave := Math.floor (toNum halfStepsBelowMiddleC / fin 12)
  let noteIndex := rem halfStepsBelowMiddleC (fin 12)
  plus (notesAt noteIndex) octave

/-- The array `octaves`: `Array.from({length: 8}, (_, i) => i + 1)`. -/
def octaves : List Nat := (List.range 8).map (fun i => i + 1)

/-- The array `cFrequencies`: `octaves.map(octave => 16.35 * Math.pow(2, octave))`. -/
def cFrequencies : List ℝ := octaves.map (fun octave => 16.35 * Math.pow2 octave)

/-- The element access `cFrequencies[i]`, `NaN` standing for `undefined` past the end. -/
def cFrequenciesAt (i : Nat) : JSNum :=
  match cFrequencies[i]? with
  | some f => fin f
  | none => nan

/-- The function `logScale(value)`, with `dimensions.height` as a parameter. -/
def logScale (height : ℝ) (value : JSNum) : JSNum :=
  let minValue := cFrequenciesAt 0
  let maxValue := cFrequenciesAt 7
  let minPixel : JSNum := fin height - fin marginBottom
  let maxPixel : JSNum := fin marginTop
  let logMin := Math.log minValue
  let logMax := Math.log maxValue
  let scale := (maxPixel - minPixel) / (logMax - logMin)
  minPixel + scale * (Math.log (Math.max value minValue) - logMin)

/-- The argument at which `logScale(value)` evaluates the logarithm of its last line:
`Math.max(value, minValue)`. -/
def logScaleArg (value : JSNum) : JSNum :=
  Math.max value (cFrequenciesAt 0)

/-- The function `calculateRMS(buffer)`. -/
def calculateRMS (buffer : List ℝ) : JSNum :=
  let sum := buffer.foldl (fun sum x => sum + x * x) 0
  Math.sqrt (fin sum / fin (buffer.length : ℝ))

/-- An element of `graphData`: `{ time, pitch }`, the pitch being `null` (here `none`)
for a frame that did not pass the gates. -/
structure Sample where
  time : JSNum
  pitch : Option JSNum

/-- The state that `updatePitch` writes: `pitch`, `clarity`, `decibel`, `graphData`. -/
structure State where
  pitch : JSNum
  clarity : JSNum
  decibel : JSNum
  graphData : List Sample

/-- The initial values given to `useState`. -/
def initialState : State :=
  { pitch := fin 0, clarity := fin 0, decibel := negInf, graphData := [] }

/-- The pitch estimator `detectorRef.current.findPitch(input, sampleRate)`,
an external function returning the pair `[pitch, clarity]`. -/
abbrev Estimator := List ℝ → JSNum → JSNum × JSNum

/-- The loudness reading of `updatePitch`: `20 * Math.log10(calculateRMS(input))`. -/
def loudness (input : List ℝ) : JSNum :=
  let rms := calculateRMS input
  fin 20 * Math.log10 rms

/-- One call of `updatePitch`: `input` is the frame read from the analyser,
`now` the value of `Date.now()`.  `startTime` is the value the interval callback
closed over, that of the first render; the rejecting branches write the state too,
setting pitch and clarity to `0`. -/
def updatePitch (findPitch : Estimator) (sampleRate : JSNum) (startTime : ℝ)
    (st : State) (input : List ℝ) (now : ℝ) : State :=
  let newDecibel := loudness input
  let currentTime : JSNum := (fin now - fin startTime) / fin 1000
  if gt newDecibel (fin (-40)) then
    let (pitchResult, clarityResult) := findPitch input sampleRate
    if gt clarityResult (fin 0.9) then
      let correctedPitch := pitchResult
      { pitch := correctedPitch, clarity := clarityResult, decibel := newDecibel,
        graphData := pushSample st.graphData { time := currentTime, pitch := some correctedPitch } }
    else
      { pitch := fin 0, clarity := fin 0, decibel := newDecibel,
        graphData := pushSample st.graphData { time := currentTime, pitch := none } }
  else
    { pitch := fin 0, clarity := fin 0, decibel := newDecibel,
      graphData := pushSample st.graphData { time := currentTime, pitch := none } }

/-- The state after the timer has called `updatePitch` once per element of `ticks`
(a frame and a clock reading each), oldest first.  The component never clears the
interval: its cleanup closure is returned by the async `setupAudio`, not by the effect. -/
def runTicks (findPitch : Estimator) (sampleRate : JSNum) (startTime : ℝ)
    (st : State) (ticks : List (List ℝ × ℝ)) : State :=
  ticks.foldl (fun s t => updatePitch findPitch sampleRate startTime s t.1 t.2) st

/-- The note text of the pitch label in the rendered output: `{getNote(pitch)}`. -/
def noteLabel (st : State) : NoteValue :=
  getNote st.pitch

end


/-! ## The same functions in binary64

A JavaScript number is an IEEE 754 binary64 value.  The definitions above take
every operation exactly; the definitions of this section round the result of
every operation to the nearest binary64 value, ties to the even significand.
The four operators and `Math.sqrt` are correctly rounded in IEEE 754; for
`Math.log`, `Math.log2` and `Math.log10`, which ECMAScript leaves
implementation-approximated, the result is taken to be the binary64 value
nearest the real logarithm.  Samples, frequencies and heights given to these
functions are meant to be binary64 values themselves. -/

noncomputable section

open JSVal

/-- The integer nearest a real, the even one of the two when it lies halfway. -/
def roundHalfEven (y : ℝ) : ℤ :=
  if y - ⌊y⌋ < 1 / 2 then ⌊y⌋
  else if 1 / 2 < y - ⌊y⌋ then ⌊y⌋ + 1
  else if ⌊y⌋ % 2 = 0 then ⌊y⌋ else ⌊y⌋ + 1

/-- The exponent of the unit in the last place of binary64 at `x`: 53 significant
bits, and the fixed exponent `-1074` in the subnormal range. -/
def ulpExp (x : ℝ) : ℤ :=
  max (Int.log 2 |x| - 52) (-1074)

/-- The binary64 value nearest a real, an infinity when the rounded magnitude
reaches `2 ^ 1024`. -/
def toBinary64 (x : ℝ) : JSNum :=
  let r : ℝ := (roundHalfEven (x / 2 ^ ulpExp x) : ℝ) * 2 ^ ulpExp x
  if (2 : ℝ) ^ (1024 : ℤ) ≤ |r| then (if 0 < x then posInf else negInf) else fin r

/-- The rounding applied to the exact result of an operation. -/
def round64 : JSNum → JSNum
  | fin x => toBinary64 x
  | v => v

/-- The function `calculateRMS(buffer)` in binary64. -/
def calculateRMS64 (buffer : List ℝ) : JSNum :=
  let sum := buffer.foldl (fun sum x => round64 (sum + round64 (fin x * fin x))) (fin 0)
  round64 (Math.sqrt (round64 (sum / fin (buffer.length : ℝ))))

/-- The loudness reading `20 * Math.log10(calculateRMS(input))` in binary64. -/
def loudness64 (input : List ℝ) : JSNum :=
  let rms := calculateRMS64 input
  round64 (fin 20 * round64 (Math.log10 rms))

/-- The half-step count of `getNote` in binary64; `c0` is the binary64 value of the
literal `16.35`. -/
def halfSteps64 (frequency : JSNum) : JSInt :=
  let c0 : JSNum := toBinary64 16.35
  Math.round (round64 (fin 12 * round64 (Math.log2 (round64 (frequency / c0)))))

/-- The function `getNote(frequency)` in binary64. -/
def getNote64 (frequency : JSNum) : NoteValue :=
  let halfStepsBelowMiddleC := halfSteps64 frequency
  let octave := Math.floor (round64 (toNum halfStepsBelowMiddleC / fin 12))
  let noteIndex := rem halfStepsBelowMiddleC (fin 12)
  plus (notesAt noteIndex) octave

/-- The array `cFrequencies` in binary64. -/
def cFrequencies64 : List JSNum :=
  octaves.map (fun octave => round64 (toBinary64 16.35 * fin (Math.pow2 octave)))

/-- The element access `cFrequencies[i]` in binary64. -/
def cFrequenciesAt64 (i : Nat) : JSNum :=
  match cFrequencies64[i]? with
  | some f => f
  | none => nan

/-- The function `logScale(value)` in binary64. -/
def logScale64 (height : ℝ) (value : JSNum) : JSNum :=
  let minValue := cFrequenciesAt64 0
  let maxValue := cFrequenciesAt64 7
  let minPixel : JSNum := round64 (fin height - fin marginBottom)
  let maxPixel : JSNum := fin marginTop
  let logMin := round64 (Math.log minValue)
  let logMax := round64 (Math.log maxValue)
  let scale := round64 (round64 (maxPixel - minPixel) / round64 (logMax - logMin))
  round64 (minPixel +
    round64 (scale * round64 (round64 (Math.log (Math.max value minValue)) - logMin)))

end

/-! ## Evaluation lemmas for finite numbers -/

section Lemmas

open JSVal

theorem fin_add_fin (x y : ℝ) : (fin x + fin y : JSNum) = fin (x + y) := rfl

theorem fin_sub_fin (x y : ℝ) : (fin x - fin y : JSNum) = fin (x - y) := by
  show (fin (x + -y) : JSNum) = fin (x - y)
  rw [sub_eq_add_neg]

theorem fin_mul_fin (x y : ℝ) : (fin x * fin y : JSNum) = fin (x * y) := rfl

theorem fin_div_fin (x y : ℝ) (hy : y ≠ 0) : (fin x / fin y : JSNum) = fin (x / y) := by
  show (if y = 0 then signedInf x else fin (x / y)) = fin (x / y)
  rw [if_neg hy]

theorem logWith_pos (L : ℝ → ℝ) (x : ℝ) (hx : 0 < x) : Math.logWith L (fin x) = fin (L x) := by
  show (if x < 0 then nan else if x = 0 then negInf else fin (L x)) = fin (L x)
  rw [if_neg (not_lt.mpr hx.le), if_neg hx.ne.symm]

theorem logWith_zero (L : ℝ → ℝ) : Math.logWith L (fin 0) = negInf := by
  show (if (0 : ℝ) < 0 then nan else if (0 : ℝ) = 0 then negInf else fin (L 0)) = negInf
  rw [if_neg (lt_irrefl 0), if_pos rfl]

theorem sqrt_fin (x : ℝ) (hx : 0 ≤ x) : Math.sqrt (fin x) = fin (Real.sqrt x) := by
  show (if x < 0 then nan else fin (Real.sqrt x)) = fin (Real.sqrt x)
  rw [if_neg (not_lt.mpr hx)]

/-- A comparison `a <= c` that holds excludes `a > c`. -/
theorem not_gt_of_le (a c : JSNum) (h : le a c) : ¬ gt a c := by
  cases a <;> cases c <;> simp_all [le, gt]

/-! ### The window -/

theorem pushSample_length {α : Type} (w : List α) (s : α) :
    (pushSample w s).length = min (w.length + 1) 200 := by
  simp only [pushSample, sliceLast, List.length_drop, List.length_append, List.length_singleton]
  omega

theorem pushSample_of_lt {α : Type} (w : List α) (s : α) (h : w.length < 200) :
    pushSample w s = w ++ [s] := by
  have h0 : (w ++ [s]).length - 200 = 0 := by
    simp only [List.length_append, List.length_singleton]; omega
  simp only [pushSample, sliceLast, h0, List.drop_zero]

theorem pushSample_of_ge {α : Type} (w : List α) (s : α) (h : 200 ≤ w.length) :
    pushSample w s = w.drop (w.length + 1 - 200) ++ [s] := by
  simp only [pushSample, sliceLast, List.length_append, List.length_singleton]
  exact List.drop_append_of_le_length (by omega)

theorem pushSample_getLast {α : Type} (w : List α) (s : α) :
    (pushSample w s).getLast? = some s := by
  rcases Nat.lt_or_ge w.length 200 with h | h
  · rw [pushSample_of_lt w s h]; simp
  · rw [pushSample_of_ge w s h]; simp

/-! ### The three branches of `updatePitch` -/

/-- The time stamp `(Date.now() - startTime) / 1000` of a tick. -/
theorem currentTime_eq (now t0 : ℝ) :
    ((fin now - fin t0) / fin 1000 : JSNum) = fin ((now - t0) / 1000) := by
  rw [fin_sub_fin, fin_div_fin _ _ (by norm_num)]

theorem updatePitch_quiet (fp : Estimator) (sr : JSNum) (t0 : ℝ) (st : State)
    (input : List ℝ) (now : ℝ) (h : ¬ gt (loudness input) (fin (-40))) :
    updatePitch fp sr t0 st input now =
      { pitch := fin 0, clarity := fin 0, decibel := loudness input,
        graphData := pushSample st.graphData
          { time := fin ((now - t0) / 1000), pitch := none } } := by
  unfold updatePitch
  dsimp only
  rw [if_neg h, currentTime_eq]

theorem updatePitch_unclear (fp : Estimator) (sr : JSNum) (t0 : ℝ) (st : State)
    (input : List ℝ) (now : ℝ) (h : gt (loudness input) (fin (-40)))
    (hc : ¬ gt (fp input sr).2 (fin 0.9)) :
    updatePitch fp sr t0 st input now =
      { pitch := fin 0, clarity := fin 0, decibel := loudness input,
        graphData := pushSample st.graphData
          { time := fin ((now - t0) / 1000), pitch := none } } := by
  unfold updatePitch
  dsimp only
  rw [if_pos h, if_neg hc, currentTime_eq]

theorem updatePitch_clear (fp : Estimator) (sr : JSNum) (t0 : ℝ) (st : State)
    (input : List ℝ) (now : ℝ) (h : gt (loudness input) (fin (-40)))
    (hc : gt (fp input sr).2 (fin 0.9)) :
    updatePitch fp sr t0 st input now =
      { pitch := (fp input sr).1, clarity := (fp input sr).2, decibel := loudness input,
        graphData := pushSample st.graphData
          { time := fin ((now - t0) / 1000), pitch := some (fp input sr).1 } } := by
  unfold updatePitch
  dsimp only
  rw [if_pos h, if_pos hc, currentTime_eq]

/-- Whatever the branch, `updatePitch` pushes one sample on the old window. -/
theorem updatePitch_graphData (fp : Estimator) (sr : JSNum) (t0 : ℝ) (st : State)
    (input : List ℝ) (now : ℝ) :
    ∃ s : Sample, (updatePitch fp sr t0 st input now).graphData = pushSample st.graphData s := by
  by_cases h : gt (loudness input) (fin (-40))
  · by_cases hc : gt (fp input sr).2 (fin 0.9)
    · exact ⟨{ time := fin ((now - t0) / 1000), pitch := some (fp input sr).1 },
        by rw [updatePitch_clear fp sr t0 st input now h hc]⟩
    · exact ⟨{ time := fin ((now - t0) / 1000), pitch := none },
        by rw [updatePitch_unclear fp sr t0 st input now h hc]⟩
  · exact ⟨{ time := fin ((now - t0) / 1000), pitch := none },
      by rw [updatePitch_quiet fp sr t0 st input now h]⟩

theorem runTicks_length (fp : Estimator) (sr : JSNum) (t0 : ℝ) (ticks : List (List ℝ × ℝ))
    (st : State) (hst : st.graphData.length ≤ 200) :
    (runTicks fp sr t0 st ticks).graphData.length = min (st.graphData.length + ticks.length) 200 := by
  induction ticks generalizing st with
  | nil => simp only [runTicks, List.foldl_nil, List.length_nil]; omega
  | cons t ts ih =>
    obtain ⟨s, hs⟩ := updatePitch_graphData fp sr t0 st t.1 t.2
    have hlen := pushSample_length st.graphData s
    rw [← hs] at hlen
    have := ih (updatePitch fp sr t0 st t.1 t.2) (by omega)
    simp only [runTicks, List.foldl_cons, List.length_cons] at this ⊢
    rw [this, hlen]
    omega

/-! ### The loudness of uniform frames -/

theorem sumSquares_replicate (n : Nat) (A c : ℝ) :
    (List.replicate n A).foldl (fun sum x => sum + x * x) c = c + n * (A * A) := by
  induction n generalizing c with
  | zero => simp
  | succ k ih =>
    rw [List.replicate_succ, List.foldl_cons, ih]
    push_cast
    ring

theorem calculateRMS_replicate (n : Nat) (hn : 0 < n) (A : ℝ) (hA : 0 ≤ A) :
    calculateRMS (List.replicate n A) = fin A := by
  have hn0 : (n : ℝ) ≠ 0 := Nat.cast_ne_zero.mpr hn.ne.symm
  have hq : (0 + (n : ℝ) * (A * A)) / (n : ℝ) = A ^ 2 := by
    field_simp
    ring
  unfold calculateRMS
  dsimp only
  rw [sumSquares_replicate, List.length_replicate, fin_div_fin _ _ hn0, hq,
    sqrt_fin _ (sq_nonneg A), Real.sqrt_sq hA]

theorem loudness_replicate_pos (n : Nat) (hn : 0 < n) (A : ℝ) (hA : 0 < A) :
    loudness (List.replicate n A) = fin (20 * Real.logb 10 A) := by
  unfold loudness
  dsimp only
  rw [calculateRMS_replicate n hn A hA.le]
  show fin 20 * Math.logWith (Real.logb 10) (fin A) = fin (20 * Real.logb 10 A)
  rw [logWith_pos _ _ hA, fin_mul_fin]

theorem loudness_replicate_zero (n : Nat) (hn : 0 < n) :
    loudness (List.replicate n 0) = negInf := by
  unfold loudness
  dsimp only
  rw [calculateRMS_replicate n hn 0 le_rfl]
  show fin 20 * Math.logWith (Real.logb 10) (fin 0) = negInf
  rw [logWith_zero]
  show signedInf (-20) = negInf
  unfold signedInf
  rw [if_neg (by norm_num), if_pos (by norm_num)]

/-- A frame all of whose samples are `A` is a repetition of `A`. -/
theorem uniform_frame (frame : List ℝ) (A : ℝ) (h : ∀ x ∈ frame, x = A) :
    frame = List.replicate frame.length A :=
  List.eq_replicate_iff.mpr ⟨rfl, h⟩

/-- The bounds `601 / 2000 < log10 2 < 603 / 2000`. -/
theorem logb_ten_two_bounds :
    (601 : ℝ) / 2000 < Real.logb 10 2 ∧ Real.logb 10 2 < 603 / 2000 := by
  have h10 : (0 : ℝ) < Real.log 10 := Real.log_pos (by norm_num)
  have h1 : (601 : ℝ) * Real.log 10 < 2000 * Real.log 2 := by
    have := Real.log_lt_log (x := (10 : ℝ) ^ 601) (y := (2 : ℝ) ^ 2000) (by positivity)
      (by norm_num)
    rwa [Real.log_pow, Real.log_pow] at this
  have h2 : (2000 : ℝ) * Real.log 2 < 603 * Real.log 10 := by
    have := Real.log_lt_log (x := (2 : ℝ) ^ 2000) (y := (10 : ℝ) ^ 603) (by positivity)
      (by norm_num)
    rwa [Real.log_pow, Real.log_pow] at this
  have e : Real.log 2 = Real.logb 10 2 * Real.log 10 := by
    rw [← Real.log_div_log, div_mul_cancel₀ _ h10.ne.symm]
  rw [e] at h1 h2
  constructor
  · exact lt_of_mul_lt_mul_right (by linarith) h10.le
  · exact lt_of_mul_lt_mul_right (by linarith) h10.le

theorem logb_ten_half : Real.logb 10 0.5 = - Real.logb 10 2 := by
  rw [show (0.5 : ℝ) = 2⁻¹ by norm_num, Real.logb_inv]

theorem sumSquares_eq (buffer : List ℝ) (c : ℝ) :
    buffer.foldl (fun sum x => sum + x * x) c = c + (buffer.map (fun x => x * x)).sum := by
  induction buffer generalizing c with
  | nil => simp
  | cons a l ih =>
    rw [List.foldl_cons, ih, List.map_cons, List.sum_cons]
    ring

theorem updatePitch_decibel (fp : Estimator) (sr : JSNum) (t0 : ℝ) (st : State)
    (input : List ℝ) (now : ℝ) :
    (updatePitch fp sr t0 st input now).decibel = loudness input := by
  by_cases h : gt (loudness input) (fin (-40))
  · by_cases hc : gt (fp input sr).2 (fin 0.9)
    · rw [updatePitch_clear fp sr t0 st input now h hc]
    · rw [updatePitch_unclear fp sr t0 st input now h hc]
  · rw [updatePitch_quiet fp sr t0 st input now h]

theorem loudness_one : loudness [1] = fin 0 := by
  rw [show ([1] : List ℝ) = List.replicate 1 1 from rfl,
    loudness_replicate_pos 1 (by decide) 1 (by norm_num), Real.logb_one, mul_zero]

/-! ### The pixel mapper -/

theorem cFrequenciesAt_zero : cFrequenciesAt 0 = fin (16.35 * 2 ^ 1) := rfl

theorem cFrequenciesAt_seven : cFrequenciesAt 7 = fin (16.35 * 2 ^ 8) := rfl

theorem c1_pos : (0 : ℝ) < 16.35 * 2 ^ 1 := by norm_num

theorem c8_pos : (0 : ℝ) < 16.35 * 2 ^ 8 := by norm_num

theorem c1_lt_c8 : (16.35 : ℝ) * 2 ^ 1 < 16.35 * 2 ^ 8 := by norm_num

/-- The span `logMax - logMin` is positive. -/
theorem logSpan_pos : 0 < Real.log (16.35 * 2 ^ 8) - Real.log (16.35 * 2 ^ 1) :=
  sub_pos.mpr (Real.log_lt_log c1_pos c1_lt_c8)

theorem logScaleArg_fin (v : ℝ) : logScaleArg (fin v) = fin (max v (16.35 * 2 ^ 1)) := rfl

theorem logScaleArg_pos (v : ℝ) : 0 < max v (16.35 * 2 ^ 1) :=
  lt_of_lt_of_le c1_pos (le_max_right _ _)

/-- The first lines of `logScale`: the scale factor is finite. -/
theorem logScale_unfold (height : ℝ) (value : JSNum) :
    logScale height value =
      fin (height - marginBottom) +
        fin ((marginTop - (height - marginBottom)) /
            (Real.log (16.35 * 2 ^ 8) - Real.log (16.35 * 2 ^ 1))) *
          (Math.log (logScaleArg value) - fin (Real.log (16.35 * 2 ^ 1))) := by
  unfold logScale logScaleArg
  dsimp only
  rw [cFrequenciesAt_zero, cFrequenciesAt_seven]
  show fin height - fin marginBottom +
      (fin marginTop - (fin height - fin marginBottom)) /
          (Math.logWith Real.log (fin (16.35 * 2 ^ 8)) -
            Math.logWith Real.log (fin (16.35 * 2 ^ 1))) *
        (Math.log (Math.max value (fin (16.35 * 2 ^ 1))) -
          Math.logWith Real.log (fin (16.35 * 2 ^ 1))) = _
  rw [logWith_pos _ _ c1_pos, logWith_pos _ _ c8_pos, fin_sub_fin, fin_sub_fin, fin_sub_fin,
    fin_div_fin _ _ logSpan_pos.ne.symm]

/-- The value of `logScale` at a finite frequency. -/
theorem logScale_fin (height v : ℝ) :
    logScale height (fin v) =
      fin (height - marginBottom +
        (marginTop - (height - marginBottom)) /
            (Real.log (16.35 * 2 ^ 8) - Real.log (16.35 * 2 ^ 1)) *
          (Real.log (max v (16.35 * 2 ^ 1)) - Real.log (16.35 * 2 ^ 1))) := by
  rw [logScale_unfold, logScaleArg_fin]
  show _ + _ * (Math.logWith Real.log (fin (max v (16.35 * 2 ^ 1))) - _) = _
  rw [logWith_pos _ _ (logScaleArg_pos v), fin_sub_fin, fin_mul_fin, fin_add_fin]

/-- At or below the floor frequency the mapper returns the bottom line. -/
theorem logScale_floor (height v : ℝ) (hv : v ≤ 16.35 * 2 ^ 1) :
    logScale height (fin v) = fin (height - marginBottom) := by
  rw [logScale_fin, max_eq_right hv, sub_self, mul_zero, add_zero]

theorem logScale_top (height : ℝ) : logScale height (fin (16.35 * 2 ^ 8)) = fin marginTop := by
  rw [logScale_fin, max_eq_left c1_lt_c8.le, div_mul_cancel₀ _ logSpan_pos.ne.symm]
  congr 1
  ring

/-- The scale factor of `logScale` is not positive once the viewport is at least as
high as the two margins together. -/
theorem scale_nonpos (height : ℝ) (hh : marginTop + marginBottom ≤ height) :
    (marginTop - (height - marginBottom)) /
      (Real.log (16.35 * 2 ^ 8) - Real.log (16.35 * 2 ^ 1)) ≤ 0 :=
  div_nonpos_of_nonpos_of_nonneg (by linarith) logSpan_pos.le

theorem scale_neg (height : ℝ) (hh : marginTop + marginBottom < height) :
    (marginTop - (height - marginBottom)) /
      (Real.log (16.35 * 2 ^ 8) - Real.log (16.35 * 2 ^ 1)) < 0 :=
  div_neg_of_neg_of_pos (by linarith) logSpan_pos

/-- No input is drawn under the bottom line. -/
theorem logScale_not_under (height : ℝ) (hh : marginTop + marginBottom ≤ height)
    (value : JSNum) : ¬ gt (logScale height value) (fin (height - marginBottom)) := by
  have hs := scale_nonpos height hh
  cases value with
  | nan =>
    rw [logScale_unfold]
    exact fun hgt => hgt
  | negInf =>
    have harg : logScaleArg negInf = fin (16.35 * 2 ^ 1) := rfl
    rw [logScale_unfold, harg]
    show ¬ gt (_ + _ * (Math.logWith Real.log (fin (16.35 * 2 ^ 1)) - _)) _
    rw [logWith_pos _ _ c1_pos, fin_sub_fin, sub_self, fin_mul_fin, mul_zero, fin_add_fin,
      add_zero]
    exact lt_irrefl _
  | posInf =>
    rw [logScale_unfold]
    show ¬ gt (fin (height - marginBottom) + signedInf _) _
    unfold signedInf
    rw [if_neg (not_lt.mpr hs)]
    split
    · exact fun hgt => hgt
    · exact fun hgt => hgt
  | fin v =>
    rw [logScale_fin]
    show ¬ (height - marginBottom < _)
    have hlog : 0 ≤ Real.log (max v (16.35 * 2 ^ 1)) - Real.log (16.35 * 2 ^ 1) :=
      sub_nonneg.mpr (Real.log_le_log c1_pos (le_max_right _ _))
    have := mul_nonpos_of_nonpos_of_nonneg hs hlog
    linarith

/-- No argument of the logarithm of the last line of `logScale` is `<= 0`. -/
theorem logScaleArg_not_le_zero (value : JSNum) : ¬ le (logScaleArg value) (fin 0) := by
  cases value with
  | nan => exact fun hle => hle
  | negInf => exact not_le.mpr c1_pos
  | posInf => exact fun hle => hle
  | fin v => exact not_le.mpr (logScaleArg_pos v)

/-! ### The note resolver -/

theorem round_fin (x : ℝ) : Math.round (fin x) = fin ⌊x + 1 / 2⌋ := rfl

/-- The half-step count of a positive frequency is finite. -/
theorem halfSteps_pos (f : ℝ) (hf : 0 < f) :
    halfSteps (fin f) = fin ⌊12 * Real.logb 2 (f / 16.35) + 1 / 2⌋ := by
  unfold halfSteps
  dsimp only
  rw [fin_div_fin _ _ (by norm_num)]
  show Math.round (fin 12 * Math.logWith (Real.logb 2) (fin (f / 16.35))) = _
  rw [logWith_pos _ _ (div_pos hf (by norm_num)), fin_mul_fin, round_fin]

/-- The half-step count of the sentinel `0` is `-Infinity`. -/
theorem halfSteps_zero : halfSteps (fin 0) = negInf := by
  unfold halfSteps
  dsimp only
  rw [fin_div_fin _ _ (by norm_num), zero_div]
  show Math.round (fin 12 * Math.logWith (Real.logb 2) (fin 0)) = _
  rw [logWith_zero]
  show Math.round (signedInf (-12)) = negInf
  unfold signedInf
  rw [if_neg (by norm_num), if_pos (by norm_num)]
  rfl

theorem floor_div_twelve (h : ℤ) : ⌊(h : ℝ) / 12⌋ = h / 12 := by
  have hq := Rat.floor_intCast_div_natCast h 12
  rw [← Rat.floor_cast (α := ℝ)] at hq
  push_cast at hq
  exact hq

/-- The last three lines of `getNote` once the half-step count is a finite `h`. -/
theorem getNote_of_halfSteps (frequency : JSNum) (h : ℤ) (hh : halfSteps frequency = fin h) :
    getNote frequency = plus (notesAt (fin (Int.tmod h 12))) (fin (Int.fdiv h 12)) := by
  unfold getNote
  dsimp only
  rw [hh]
  show plus (notesAt (fin (Int.tmod h 12))) (Math.floor (fin (h : ℝ) / fin 12)) = _
  rw [fin_div_fin _ _ (by norm_num)]
  show plus _ (fin ⌊(h : ℝ) / 12⌋) = _
  rw [floor_div_twelve, Int.fdiv_eq_ediv h (by decide)]

/-- The rounding `Math.round(12 * Math.log2(r))` is `k` as soon as `r ^ 24` lies
between `2 ^ (2 * k - 1)` and `2 ^ (2 * k + 1)`. -/
theorem round_logb_eq (r : ℝ) (hr : 0 < r) (k : ℤ) (hlo : (2 : ℝ) ^ (2 * k - 1) ≤ r ^ 24)
    (hhi : r ^ 24 < (2 : ℝ) ^ (2 * k + 1)) : ⌊12 * Real.logb 2 r + 1 / 2⌋ = k := by
  have h24 : Real.logb 2 (r ^ 24) = 24 * Real.logb 2 r := by
    rw [Real.logb_pow]
    norm_num
  have h1 : ((2 * k - 1 : ℤ) : ℝ) ≤ Real.logb 2 (r ^ 24) :=
    (Real.le_logb_iff_rpow_le one_lt_two (pow_pos hr 24)).mpr
      (by rw [Real.rpow_intCast]; exact hlo)
  have h2 : Real.logb 2 (r ^ 24) < ((2 * k + 1 : ℤ) : ℝ) :=
    (Real.logb_lt_iff_lt_rpow one_lt_two (pow_pos hr 24)).mpr
      (by rw [Real.rpow_intCast]; exact hhi)
  rw [h24] at h1 h2
  push_cast at h1 h2
  rw [Int.floor_eq_iff]
  constructor <;> linarith

theorem halfSteps_440 : halfSteps (fin 440.0) = fin 57 := by
  rw [halfSteps_pos _ (by norm_num), round_logb_eq _ (by norm_num) 57 (by norm_num) (by norm_num)]

theorem halfSteps_261_6 : halfSteps (fin 261.6) = fin 48 := by
  rw [halfSteps_pos _ (by norm_num), round_logb_eq _ (by norm_num) 48 (by norm_num) (by norm_num)]

theorem halfSteps_16_35 : halfSteps (fin 16.35) = fin 0 := by
  rw [halfSteps_pos _ (by norm_num), round_logb_eq _ (by norm_num) 0 (by norm_num) (by norm_num)]

theorem halfSteps_15_5 : halfSteps (fin 15.5) = fin (-1) := by
  rw [halfSteps_pos _ (by norm_num), round_logb_eq _ (by norm_num) (-1) (by norm_num) (by norm_num)]

theorem getNote_zero : getNote (fin 0) = NoteValue.num nan := by
  unfold getNote
  dsimp only
  rw [halfSteps_zero]
  rfl

/-- Every index in `0..11` hits a name of the table. -/
theorem notesAt_of_lt (n : Nat) (hn : n < 12) :
    ∃ name, notes[n]? = some name ∧ notesAt (fin (Int.ofNat n)) = some name := by
  have hlen : n < notes.length := hn
  exact ⟨notes[n], List.getElem?_eq_getElem hlen, List.getElem?_eq_getElem hlen⟩

end Lemmas

section Binary64

open JSVal

theorem le_roundHalfEven (y : ℝ) (n : ℤ) (h : (n : ℝ) - 1 / 2 < y) : n ≤ roundHalfEven y := by
  have h1 := Int.floor_le y
  have h2 := Int.lt_floor_add_one y
  unfold roundHalfEven
  split_ifs with c1 c2 c3
  · have : (n : ℝ) < (⌊y⌋ : ℝ) + 1 := by linarith
    have : n < ⌊y⌋ + 1 := by exact_mod_cast this
    omega
  · have : (n : ℝ) < (⌊y⌋ : ℝ) + 2 := by linarith
    have : n < ⌊y⌋ + 2 := by exact_mod_cast this
    omega
  · have : (n : ℝ) < (⌊y⌋ : ℝ) + 1 := by linarith
    have : n < ⌊y⌋ + 1 := by exact_mod_cast this
    omega
  · have : (n : ℝ) < (⌊y⌋ : ℝ) + 1 := by linarith
    have : n < ⌊y⌋ + 1 := by exact_mod_cast this
    omega

theorem roundHalfEven_le (y : ℝ) (n : ℤ) (h : y < (n : ℝ) + 1 / 2) : roundHalfEven y ≤ n := by
  have h1 := Int.floor_le y
  have h2 := Int.lt_floor_add_one y
  unfold roundHalfEven
  split_ifs with c1 c2 c3
  · have : (⌊y⌋ : ℝ) < (n : ℝ) + 1 := by linarith
    have : ⌊y⌋ < n + 1 := by exact_mod_cast this
    omega
  · have : (⌊y⌋ : ℝ) < (n : ℝ) := by linarith
    have : ⌊y⌋ < n := by exact_mod_cast this
    omega
  · have : (⌊y⌋ : ℝ) < (n : ℝ) + 1 := by linarith
    have : ⌊y⌋ < n + 1 := by exact_mod_cast this
    omega
  · have : (⌊y⌋ : ℝ) < (n : ℝ) := by linarith
    have : ⌊y⌋ < n := by exact_mod_cast this
    omega

theorem roundHalfEven_eq (y : ℝ) (n : ℤ) (hlo : (n : ℝ) - 1 / 2 < y) (hhi : y < (n : ℝ) + 1 / 2) :
    roundHalfEven y = n :=
  le_antisymm (roundHalfEven_le y n hhi) (le_roundHalfEven y n hlo)

theorem roundHalfEven_intCast (n : ℤ) : roundHalfEven (n : ℝ) = n :=
  roundHalfEven_eq _ n (by linarith) (by linarith)

/-- A value halfway between two integers goes to the even one. -/
theorem roundHalfEven_tie (n : ℤ) (hn : n % 2 = 0) : roundHalfEven ((n : ℝ) + 1 / 2) = n := by
  have hfl : ⌊(n : ℝ) + 1 / 2⌋ = n := by
    rw [Int.floor_eq_iff]
    constructor <;> linarith
  unfold roundHalfEven
  rw [hfl]
  rw [if_neg (by linarith), if_neg (by linarith), if_pos hn]

/-- The rounding error is at most one half. -/
theorem roundHalfEven_error (y : ℝ) :
    (roundHalfEven y : ℝ) - 1 / 2 ≤ y ∧ y ≤ (roundHalfEven y : ℝ) + 1 / 2 := by
  have h1 := Int.floor_le y
  have h2 := Int.lt_floor_add_one y
  unfold roundHalfEven
  split_ifs with c1 c2 c3 <;> push_cast <;> constructor <;> linarith

theorem roundHalfEven_mono (y z : ℝ) (h : y ≤ z) : roundHalfEven y ≤ roundHalfEven z := by
  rcases eq_or_lt_of_le h with heq | hlt
  · rw [heq]
  · exact le_roundHalfEven z _ (by linarith [(roundHalfEven_error y).1])

/-- Of three reals spanning less than one unit, two neighbours round alike. -/
theorem roundHalfEven_collide (y0 y1 y2 : ℝ) (h01 : y0 ≤ y1) (h12 : y1 ≤ y2) (h : y2 - y0 < 1) :
    roundHalfEven y0 = roundHalfEven y1 ∨ roundHalfEven y1 = roundHalfEven y2 := by
  have m1 := roundHalfEven_mono y0 y1 h01
  have m2 := roundHalfEven_mono y1 y2 h12
  have e0 := (roundHalfEven_error y0).2
  have e2 := (roundHalfEven_error y2).1
  have hr : (roundHalfEven y2 : ℝ) - (roundHalfEven y0 : ℝ) < 2 := by linarith
  have hz : roundHalfEven y2 - roundHalfEven y0 < 2 := by exact_mod_cast hr
  omega

theorem two_zpow_pos (e : ℤ) : (0 : ℝ) < 2 ^ e := zpow_pos (by norm_num) e

theorem ulpExp_of_binade (x : ℝ) (k : ℤ) (hk : -1022 ≤ k) (hlo : (2 : ℝ) ^ k ≤ |x|)
    (hhi : |x| < (2 : ℝ) ^ (k + 1)) : ulpExp x = k - 52 := by
  have hpos : 0 < |x| := lt_of_lt_of_le (two_zpow_pos k) hlo
  have h1 : k ≤ Int.log 2 |x| :=
    (Int.zpow_le_iff_le_log (by norm_num) hpos).mp (by simpa using hlo)
  have h2 : Int.log 2 |x| < k + 1 :=
    (Int.lt_zpow_iff_log_lt (by norm_num) hpos).mp (by simpa using hhi)
  unfold ulpExp
  omega

/-- Inside the binade `[2 ^ k, 2 ^ (k + 1))` rounding acts on multiples of `2 ^ (k - 52)`. -/
theorem toBinary64_binade (x : ℝ) (k : ℤ) (hk : -1022 ≤ k) (hk2 : k ≤ 1022)
    (hlo : (2 : ℝ) ^ k ≤ |x|) (hhi : |x| < (2 : ℝ) ^ (k + 1)) :
    toBinary64 x = fin ((roundHalfEven (x / 2 ^ (k - 52)) : ℝ) * 2 ^ (k - 52)) := by
  have he := ulpExp_of_binade x k hk hlo hhi
  have hu := two_zpow_pos (k - 52)
  have hsplit : (2 : ℝ) ^ (k + 1) = 2 ^ (53 : ℤ) * 2 ^ (k - 52) := by
    rw [← zpow_add₀ (by norm_num)]
    congr 1
    ring
  have hy : |x / 2 ^ (k - 52)| < 2 ^ (53 : ℤ) := by
    rw [abs_div, abs_of_pos hu, div_lt_iff₀ hu, ← hsplit]
    exact hhi
  have hy' := abs_lt.mp hy
  have hz : (2 : ℝ) ^ (53 : ℤ) = ((2 ^ 53 : ℤ) : ℝ) := by norm_num
  have hup : roundHalfEven (x / 2 ^ (k - 52)) ≤ 2 ^ 53 :=
    roundHalfEven_le _ _ (by rw [← hz]; linarith)
  have hdn : -(2 ^ 53) ≤ roundHalfEven (x / 2 ^ (k - 52)) :=
    le_roundHalfEven _ _ (by push_cast; rw [hz] at hy'; push_cast at hy'; linarith)
  have hR : |(roundHalfEven (x / 2 ^ (k - 52)) : ℝ)| ≤ 2 ^ (53 : ℤ) := by
    rw [abs_le, hz]
    constructor
    · exact_mod_cast hdn
    · exact_mod_cast hup
  have hr : |(roundHalfEven (x / 2 ^ (k - 52)) : ℝ) * 2 ^ (k - 52)| < 2 ^ (1024 : ℤ) := by
    rw [abs_mul, abs_of_pos hu]
    calc |(roundHalfEven (x / 2 ^ (k - 52)) : ℝ)| * 2 ^ (k - 52)
        ≤ 2 ^ (53 : ℤ) * 2 ^ (k - 52) := mul_le_mul_of_nonneg_right hR hu.le
      _ = 2 ^ (k + 1) := hsplit.symm
      _ ≤ 2 ^ (1023 : ℤ) := zpow_le_zpow_right₀ (by norm_num) (by omega)
      _ < 2 ^ (1024 : ℤ) := by norm_num
  unfold toBinary64
  dsimp only
  rw [he, if_neg (not_le.mpr hr)]

/-- A real within half a unit in the last place of a multiple of the unit rounds to it. -/
theorem toBinary64_eq (x : ℝ) (k m : ℤ) (hk : -1022 ≤ k) (hk2 : k ≤ 1022)
    (hlo : (2 : ℝ) ^ k ≤ |x|) (hhi : |x| < (2 : ℝ) ^ (k + 1))
    (hnear : |x - (m : ℝ) * 2 ^ (k - 52)| < 2 ^ (k - 52) / 2) :
    toBinary64 x = fin ((m : ℝ) * 2 ^ (k - 52)) := by
  have hu := two_zpow_pos (k - 52)
  have hn := abs_lt.mp hnear
  rw [toBinary64_binade x k hk hk2 hlo hhi, roundHalfEven_eq _ m]
  · rw [lt_div_iff₀ hu]
    linarith
  · rw [div_lt_iff₀ hu]
    linarith

/-- A real halfway between two multiples of the unit rounds to the even one. -/
theorem toBinary64_tie (x : ℝ) (k m : ℤ) (hk : -1022 ≤ k) (hk2 : k ≤ 1022)
    (hlo : (2 : ℝ) ^ k ≤ |x|) (hhi : |x| < (2 : ℝ) ^ (k + 1)) (hm : m % 2 = 0)
    (htie : x = ((m : ℝ) + 1 / 2) * 2 ^ (k - 52)) :
    toBinary64 x = fin ((m : ℝ) * 2 ^ (k - 52)) := by
  have hu := two_zpow_pos (k - 52)
  rw [toBinary64_binade x k hk hk2 hlo hhi]
  have : x / 2 ^ (k - 52) = (m : ℝ) + 1 / 2 := by
    rw [htie, mul_div_assoc, div_self hu.ne.symm, mul_one]
  rw [this, roundHalfEven_tie m hm]

/-- Bounds that are multiples of the unit survive the rounding, with half a unit to spare. -/
theorem toBinary64_between (x : ℝ) (k a b : ℤ) (hk : -1022 ≤ k) (hk2 : k ≤ 1022)
    (hlo : (2 : ℝ) ^ k ≤ |x|) (hhi : |x| < (2 : ℝ) ^ (k + 1))
    (ha : ((a : ℝ) - 1 / 2) * 2 ^ (k - 52) < x) (hb : x < ((b : ℝ) + 1 / 2) * 2 ^ (k - 52)) :
    ∃ r : ℝ, toBinary64 x = fin r ∧ (a : ℝ) * 2 ^ (k - 52) ≤ r ∧ r ≤ (b : ℝ) * 2 ^ (k - 52) := by
  have hu := two_zpow_pos (k - 52)
  refine ⟨_, toBinary64_binade x k hk hk2 hlo hhi, ?_, ?_⟩
  · apply mul_le_mul_of_nonneg_right _ hu.le
    have : a ≤ roundHalfEven (x / 2 ^ (k - 52)) :=
      le_roundHalfEven _ a (by rw [lt_div_iff₀ hu]; exact ha)
    exact_mod_cast this
  · apply mul_le_mul_of_nonneg_right _ hu.le
    have : roundHalfEven (x / 2 ^ (k - 52)) ≤ b :=
      roundHalfEven_le _ b (by rw [div_lt_iff₀ hu]; exact hb)
    exact_mod_cast this

theorem round64_fin (x : ℝ) : round64 (fin x) = toBinary64 x := rfl

theorem toBinary64_zero : toBinary64 0 = fin 0 := by
  unfold toBinary64
  dsimp only
  have h0 : roundHalfEven 0 = 0 := by
    have := roundHalfEven_intCast 0
    rwa [Int.cast_zero] at this
  rw [zero_div, h0, Int.cast_zero, zero_mul, abs_zero, if_neg (not_le.mpr (two_zpow_pos 1024))]

/-- A multiple `m * 2 ^ j` with `|m| < 2 ^ 53` is a binary64 value: rounding keeps it. -/
theorem toBinary64_multiple (m j : ℤ) (hm : |m| < 2 ^ 53) (hj : -1074 ≤ j) (hj2 : j ≤ 969) :
    toBinary64 ((m : ℝ) * 2 ^ j) = fin ((m : ℝ) * 2 ^ j) := by
  rcases eq_or_ne m 0 with h0 | h0
  · rw [h0, Int.cast_zero, zero_mul, toBinary64_zero]
  have hj0 := two_zpow_pos j
  have hmR : |(m : ℝ)| < 2 ^ (53 : ℤ) := by
    have : ((|m| : ℤ) : ℝ) < ((2 ^ 53 : ℤ) : ℝ) := by exact_mod_cast hm
    rw [Int.cast_abs] at this
    norm_num at this ⊢
    exact this
  have hxabs : |(m : ℝ) * 2 ^ j| = |(m : ℝ)| * 2 ^ j := by rw [abs_mul, abs_of_pos hj0]
  have hxpos : 0 < |(m : ℝ) * 2 ^ j| := by
    rw [hxabs]
    exact mul_pos (abs_pos.mpr (by exact_mod_cast h0)) hj0
  have hxlt : |(m : ℝ) * 2 ^ j| < 2 ^ (j + 53) := by
    rw [hxabs, zpow_add₀ (by norm_num), mul_comm ((2 : ℝ) ^ j)]
    exact mul_lt_mul_of_pos_right hmR hj0
  have hlog : Int.log 2 |(m : ℝ) * 2 ^ j| < j + 53 :=
    (Int.lt_zpow_iff_log_lt (by norm_num) hxpos).mp (by simpa using hxlt)
  have he : ulpExp ((m : ℝ) * 2 ^ j) ≤ j := by
    unfold ulpExp
    omega
  have hr : |(m : ℝ) * 2 ^ j| < 2 ^ (1024 : ℤ) :=
    lt_of_lt_of_le hxlt (zpow_le_zpow_right₀ (by norm_num) (by omega))
  unfold toBinary64
  dsimp only
  obtain ⟨e, hee⟩ : ∃ e, e = ulpExp ((m : ℝ) * 2 ^ j) := ⟨_, rfl⟩
  rw [← hee] at he ⊢
  obtain ⟨d, hd⟩ := Int.eq_ofNat_of_zero_le (sub_nonneg.mpr he)
  have hu := two_zpow_pos e
  have hsplit : (2 : ℝ) ^ j = 2 ^ d * 2 ^ e := by
    rw [← zpow_natCast, ← zpow_add₀ (by norm_num)]
    congr 1
    omega
  have hquot : (m : ℝ) * 2 ^ j / 2 ^ e = ((m * 2 ^ d : ℤ) : ℝ) := by
    rw [hsplit, ← mul_assoc, mul_div_assoc, div_self hu.ne.symm, mul_one]
    push_cast
    ring
  have hback : ((m * 2 ^ d : ℤ) : ℝ) * 2 ^ e = (m : ℝ) * 2 ^ j := by
    rw [hsplit]
    push_cast
    ring
  rw [hquot, roundHalfEven_intCast, hback, if_neg (not_le.mpr hr)]

/-! ### The RMS of 33 samples of `16562119 / 2 ^ 24` in binary64 -/

theorem square64 : round64 (fin (16562119 / 2 ^ 24) * fin (16562119 / 2 ^ 24)) =
    fin (274303785770161 / 2 ^ 48) := by
  rw [fin_mul_fin]
  show toBinary64 _ = _
  have h := toBinary64_multiple 274303785770161 (-48) (by norm_num) (by norm_num) (by norm_num)
  have e : ((274303785770161 : ℤ) : ℝ) * 2 ^ (-48 : ℤ) =
      16562119 / 2 ^ 24 * (16562119 / 2 ^ 24) := by norm_num
  have e' : ((274303785770161 : ℤ) : ℝ) * 2 ^ (-48 : ℤ) = 274303785770161 / 2 ^ 48 := by norm_num
  rw [e] at h
  rw [h, ← e, e']

/-- The first 32 partial sums are exact. -/
theorem sum64_exact (n : Nat) (hn : n ≤ 32) :
    (List.replicate n (16562119 / 2 ^ 24 : ℝ)).foldl
        (fun sum x => round64 (sum + round64 (fin x * fin x))) (fin 0) =
      fin ((n : ℝ) * (274303785770161 / 2 ^ 48)) := by
  induction n with
  | zero => simp
  | succ k ih =>
    have hk : k ≤ 32 := by omega
    rw [List.replicate_succ', List.foldl_append, ih hk, List.foldl_cons, List.foldl_nil,
      square64, fin_add_fin]
    show toBinary64 _ = _
    have hm : |((k + 1 : ℕ) : ℤ) * 274303785770161| < 2 ^ 53 := by
      rw [abs_of_nonneg (by positivity)]
      have : ((k + 1 : ℕ) : ℤ) ≤ 32 := by exact_mod_cast hn
      omega
    have h := toBinary64_multiple (((k + 1 : ℕ) : ℤ) * 274303785770161) (-48) hm
      (by norm_num) (by norm_num)
    have e : (((((k + 1 : ℕ) : ℤ) * 274303785770161 : ℤ)) : ℝ) * 2 ^ (-48 : ℤ) =
        (k : ℝ) * (274303785770161 / 2 ^ 48) + 274303785770161 / 2 ^ 48 := by
      push_cast
      norm_num
      ring
    rw [e] at h
    rw [h]
    congr 1
    push_cast
    ring

theorem sum64_33 :
    (List.replicate 33 (16562119 / 2 ^ 24 : ℝ)).foldl
        (fun sum x => round64 (sum + round64 (fin x * fin x))) (fin 0) =
      fin (4526012465207656 / 2 ^ 47) := by
  rw [List.replicate_succ', List.foldl_append, sum64_exact 32 le_rfl, List.foldl_cons,
    List.foldl_nil, square64, fin_add_fin]
  show toBinary64 _ = _
  have h := toBinary64_tie (((32 : ℕ) : ℝ) * (274303785770161 / 2 ^ 48) +
    274303785770161 / 2 ^ 48) 5 4526012465207656 (by norm_num) (by norm_num)
    (by rw [abs_of_pos (by norm_num)]; norm_num)
    (by rw [abs_of_pos (by norm_num)]; norm_num) (by decide) (by norm_num)
  rw [h]
  norm_num

theorem mean64_33 : round64 (fin (4526012465207656 / 2 ^ 47) / fin ((33 : ℕ) : ℝ)) =
    fin (8777721144645151 / 2 ^ 53) := by
  rw [fin_div_fin _ _ (by norm_num)]
  show toBinary64 _ = _
  have h := toBinary64_eq ((4526012465207656 / 2 ^ 47 : ℝ) / ((33 : ℕ) : ℝ)) (-1)
    8777721144645151 (by norm_num) (by norm_num)
    (by rw [abs_of_pos (by norm_num)]; norm_num)
    (by rw [abs_of_pos (by norm_num)]; norm_num)
    (by rw [abs_lt]; constructor <;> norm_num)
  rw [h]
  norm_num

theorem sqrt64_33 : round64 (Math.sqrt (fin (8777721144645151 / 2 ^ 53))) =
    fin (8891719932182527 / 2 ^ 53) := by
  rw [sqrt_fin _ (by norm_num)]
  show toBinary64 _ = _
  have hq0 : (0 : ℝ) ≤ 8777721144645151 / 2 ^ 53 := by norm_num
  have hlo : (8891719932182527 / 2 ^ 53 - 1 / 2 ^ 54 : ℝ) <
      Real.sqrt (8777721144645151 / 2 ^ 53) :=
    (Real.lt_sqrt (by norm_num)).mpr (by norm_num)
  have hhi : Real.sqrt (8777721144645151 / 2 ^ 53) <
      (8891719932182527 / 2 ^ 53 + 1 / 2 ^ 54 : ℝ) :=
    (Real.sqrt_lt' (by norm_num)).mpr (by norm_num)
  have hpos : (0 : ℝ) < Real.sqrt (8777721144645151 / 2 ^ 53) := lt_trans (by norm_num) hlo
  have h := toBinary64_eq (Real.sqrt (8777721144645151 / 2 ^ 53)) (-1)
    8891719932182527 (by norm_num) (by norm_num)
    (by rw [abs_of_pos hpos]; norm_num at hlo ⊢; linarith)
    (by rw [abs_of_pos hpos]; norm_num at hhi ⊢; linarith)
    (by rw [abs_lt]; norm_num at hlo hhi ⊢; constructor <;> linarith)
  rw [h]
  norm_num

theorem calculateRMS64_33 :
    calculateRMS64 (List.replicate 33 (16562119 / 2 ^ 24)) = fin (8891719932182527 / 2 ^ 53) := by
  unfold calculateRMS64
  dsimp only
  rw [sum64_33, List.length_replicate, mean64_33, sqrt64_33]

/-! ### `getNote` at 31.769094475722913 in binary64 -/

/-- The binary64 value of the literal `16.35`. -/
theorem c0_binary64 : toBinary64 16.35 = fin (2301057934609613 / 2 ^ 47) := by
  have h := toBinary64_eq 16.35 4 4602115869219226 (by norm_num) (by norm_num)
    (by rw [abs_of_pos (by norm_num)]; norm_num)
    (by rw [abs_of_pos (by norm_num)]; norm_num)
    (by rw [abs_lt]; constructor <;> norm_num)
  rw [h]
  norm_num

theorem quotient64_boundary :
    round64 (fin (8942205127672737 / 2 ^ 48) / fin (2301057934609613 / 2 ^ 47)) =
      fin (8750781776315827 / 2 ^ 52) := by
  rw [fin_div_fin _ _ (by norm_num), round64_fin]
  have h := toBinary64_eq ((8942205127672737 / 2 ^ 48 : ℝ) / (2301057934609613 / 2 ^ 47)) 0
    8750781776315827 (by norm_num) (by norm_num)
    (by rw [abs_of_pos (by norm_num)]; norm_num)
    (by rw [abs_of_pos (by norm_num)]; norm_num)
    (by rw [abs_lt]; constructor <;> norm_num)
  rw [h]
  norm_num

/-- The real `log2` of the quotient lies under the midpoint above `8631899285793449 / 2 ^ 53`. -/
theorem logb_quotient_lt :
    Real.logb 2 (8750781776315827 / 2 ^ 52) < 17263798571586899 / 2 ^ 54 := by
  rw [Real.logb_lt_iff_lt_rpow one_lt_two (by norm_num)]
  have hpos : (0 : ℝ) ≤ (2 : ℝ) ^ ((17263798571586899 : ℝ) / 2 ^ 54) :=
    (Real.rpow_pos_of_pos (by norm_num) _).le
  have hexp : (1 : ℝ) - 0.6931471808 * (7 / 2 ^ 51) ≤ (2 : ℝ) ^ (-(7 / 2 ^ 51) : ℝ) := by
    rw [Real.rpow_def_of_pos (by norm_num)]
    have h1 := Real.add_one_le_exp (Real.log 2 * -(7 / 2 ^ 51))
    have h2 := Real.log_two_lt_d9
    nlinarith
  have hpow : ((2 : ℝ) ^ ((17263798571586899 : ℝ) / 2 ^ 54)) ^ 24 =
      2 ^ 23 * (2 : ℝ) ^ (-(7 / 2 ^ 51) : ℝ) := by
    rw [← Real.rpow_natCast, ← Real.rpow_mul (by norm_num),
      show ((17263798571586899 : ℝ) / 2 ^ 54) * ((24 : ℕ) : ℝ) = 23 + -(7 / 2 ^ 51) by norm_num,
      Real.rpow_add (by norm_num)]
    congr 1
    rw [show (23 : ℝ) = ((23 : ℕ) : ℝ) by norm_num, Real.rpow_natCast]
  have hkey : ((8750781776315827 : ℝ) / 2 ^ 52) ^ 24 <
      ((2 : ℝ) ^ ((17263798571586899 : ℝ) / 2 ^ 54)) ^ 24 := by
    rw [hpow]
    have : ((8750781776315827 : ℝ) / 2 ^ 52) ^ 24 <
        2 ^ 23 * ((1 : ℝ) - 0.6931471808 * (7 / 2 ^ 51)) := by norm_num
    nlinarith
  exact lt_of_pow_lt_pow_left₀ 24 hpos hkey

theorem logb_quotient_ge : (15 : ℝ) / 16 ≤ Real.logb 2 (8750781776315827 / 2 ^ 52) := by
  rw [Real.le_logb_iff_rpow_le one_lt_two (by norm_num)]
  have hpow : ((2 : ℝ) ^ ((15 : ℝ) / 16)) ^ 16 = 2 ^ 15 := by
    rw [← Real.rpow_natCast, ← Real.rpow_mul (by norm_num),
      show ((15 : ℝ) / 16) * ((16 : ℕ) : ℝ) = ((15 : ℕ) : ℝ) by norm_num, Real.rpow_natCast]
  have hkey : ((2 : ℝ) ^ ((15 : ℝ) / 16)) ^ 16 ≤ ((8750781776315827 : ℝ) / 2 ^ 52) ^ 16 := by
    rw [hpow]
    norm_num
  exact le_of_pow_le_pow_left₀ (by norm_num) (by norm_num) hkey

theorem halfSteps64_boundary : halfSteps64 (fin (8942205127672737 / 2 ^ 48)) = fin 11 := by
  unfold halfSteps64
  dsimp only
  rw [c0_binary64, quotient64_boundary]
  show Math.round (round64 (fin 12 * round64 (Math.logWith (Real.logb 2) _))) = _
  rw [logWith_pos _ _ (by norm_num), round64_fin]
  have hge := logb_quotient_ge
  have hlt := logb_quotient_lt
  obtain ⟨r, hr, hr1, hr2⟩ := toBinary64_between
    (Real.logb 2 (8750781776315827 / 2 ^ 52)) (-1) 8444249301319680 8631899285793449
    (by norm_num) (by norm_num)
    (by rw [abs_of_pos (by linarith)]; norm_num; linarith)
    (by rw [abs_of_pos (by linarith)]; norm_num; linarith)
    (by norm_num; linarith) (by norm_num; linarith)
  rw [hr, fin_mul_fin, round64_fin]
  norm_num at hr1 hr2
  obtain ⟨p, hp, hp1, hp2⟩ := toBinary64_between (12 * r) 3 6333186975989760 6473924464345087
    (by norm_num) (by norm_num)
    (by rw [abs_of_pos (by linarith)]; norm_num; linarith)
    (by rw [abs_of_pos (by linarith)]; norm_num; linarith)
    (by norm_num; linarith) (by norm_num; linarith)
  rw [hp, round_fin]
  norm_num at hp1 hp2
  congr 1
  rw [Int.floor_eq_iff]
  constructor
  · push_cast; linarith
  · push_cast; linarith

theorem getNote64_boundary :
    getNote64 (fin (8942205127672737 / 2 ^ 48)) = NoteValue.str "B0" := by
  unfold getNote64
  dsimp only
  rw [halfSteps64_boundary]
  show plus (notesAt (rem (fin 11) (fin 12)))
    (Math.floor (round64 (fin ((11 : ℤ) : ℝ) / fin 12))) = _
  rw [fin_div_fin _ _ (by norm_num), round64_fin]
  have h := toBinary64_eq (((11 : ℤ) : ℝ) / 12) (-1) 8256599316845909 (by norm_num) (by norm_num)
    (by rw [abs_of_pos (by norm_num)]; norm_num)
    (by rw [abs_of_pos (by norm_num)]; norm_num)
    (by rw [abs_lt]; constructor <;> norm_num)
  rw [h]
  have hfl : Math.floor (fin (((8256599316845909 : ℤ) : ℝ) * 2 ^ ((-1 : ℤ) - 52))) = fin 0 := by
    show fin ⌊_⌋ = fin 0
    congr 1
    rw [Int.floor_eq_iff]
    constructor <;> norm_num
  rw [hfl]
  decide

/-! ### `logScale` at three neighbouring binary64 frequencies -/

/-- The binary64 value of `cFrequencies[0]`. -/
theorem cFrequenciesAt64_zero : cFrequenciesAt64 0 = fin (2301057934609613 / 2 ^ 46) := by
  show round64 (toBinary64 16.35 * fin (Math.pow2 1)) = _
  rw [c0_binary64, fin_mul_fin, round64_fin]
  have h := toBinary64_multiple 2301057934609613 (-46) (by norm_num) (by norm_num) (by norm_num)
  have e : ((2301057934609613 : ℤ) : ℝ) * 2 ^ (-46 : ℤ) =
      2301057934609613 / 2 ^ 47 * Math.pow2 1 := by
    unfold Math.pow2
    norm_num
  rw [e] at h
  rw [h]
  congr 1
  unfold Math.pow2
  norm_num

/-- The pixel of `logScale` depends on the frequency through the rounded logarithm only. -/
theorem logScale64_congr (height : ℝ) (v w : JSNum)
    (h : round64 (Math.log (Math.max v (cFrequenciesAt64 0))) =
      round64 (Math.log (Math.max w (cFrequenciesAt64 0)))) :
    logScale64 height v = logScale64 height w := by
  unfold logScale64
  dsimp only
  rw [h]

theorem roundedLog_above (f : ℝ) (hf : 2301057934609613 / 2 ^ 46 ≤ f) :
    round64 (Math.log (Math.max (fin f) (cFrequenciesAt64 0))) = toBinary64 (Real.log f) := by
  rw [cFrequenciesAt64_zero]
  show round64 (Math.logWith Real.log (fin (max f (2301057934609613 / 2 ^ 46)))) = _
  rw [max_eq_left hf, logWith_pos _ _ (lt_of_lt_of_le (by norm_num) hf), round64_fin]

theorem gt_irrefl (a : JSNum) : ¬ gt a a := by
  cases a with
  | nan => exact fun h => h
  | negInf => exact fun h => h
  | posInf => exact fun h => h
  | fin x => exact lt_irrefl x

theorem exp_four_le : Real.exp 4 ≤ 100 := by
  have h := Real.exp_one_lt_d9
  have e : Real.exp 4 = Real.exp 1 ^ 4 := by
    rw [← Real.exp_nat_mul]
    norm_num
  rw [e]
  have h0 : (0 : ℝ) ≤ Real.exp 1 := (Real.exp_pos 1).le
  calc Real.exp 1 ^ 4 ≤ (2.7182818286 : ℝ) ^ 4 := pow_le_pow_left₀ h0 h.le 4
    _ ≤ 100 := by norm_num

theorem lt_exp_eight : (101 : ℝ) < Real.exp 8 := by
  have h := Real.exp_one_gt_d9
  have e : Real.exp 8 = Real.exp 1 ^ 8 := by
    rw [← Real.exp_nat_mul]
    norm_num
  rw [e]
  calc (101 : ℝ) < (2.7182818283 : ℝ) ^ 8 := by norm_num
    _ ≤ Real.exp 1 ^ 8 := pow_le_pow_left₀ (by norm_num) h.le 8

/-- A logarithm between 4 and 8 is rounded on the multiples of `2 ^ (-50)`. -/
theorem roundedLog_binade (f : ℝ) (h1 : 100 ≤ f) (h2 : f ≤ 101) :
    toBinary64 (Real.log f) =
      fin ((roundHalfEven (Real.log f / 2 ^ ((2 : ℤ) - 52)) : ℝ) * 2 ^ ((2 : ℤ) - 52)) := by
  have hf : 0 < f := by linarith
  have hlo : (4 : ℝ) ≤ Real.log f :=
    (Real.le_log_iff_exp_le hf).mpr (le_trans exp_four_le h1)
  have hhi : Real.log f < 8 :=
    (Real.log_lt_iff_lt_exp hf).mpr (lt_of_le_of_lt h2 lt_exp_eight)
  exact toBinary64_binade _ 2 (by norm_num) (by norm_num)
    (by rw [abs_of_pos (by linarith)]; norm_num; linarith)
    (by rw [abs_of_pos (by linarith)]; norm_num; linarith)

/-- Of the rounded logarithms of 100 and its two successors in binary64, two neighbours
are equal. -/
theorem roundedLog_collide :
    toBinary64 (Real.log 100) = toBinary64 (Real.log (100 + 1 / 2 ^ 46)) ∨
      toBinary64 (Real.log (100 + 1 / 2 ^ 46)) = toBinary64 (Real.log (100 + 1 / 2 ^ 45)) := by
  rw [roundedLog_binade 100 le_rfl (by norm_num),
    roundedLog_binade (100 + 1 / 2 ^ 46) (by norm_num) (by norm_num),
    roundedLog_binade (100 + 1 / 2 ^ 45) (by norm_num) (by norm_num)]
  have hu := two_zpow_pos ((2 : ℤ) - 52)
  have m1 : Real.log 100 ≤ Real.log (100 + 1 / 2 ^ 46) :=
    Real.log_le_log (by norm_num) (by norm_num)
  have m2 : Real.log (100 + 1 / 2 ^ 46) ≤ Real.log (100 + 1 / 2 ^ 45) :=
    Real.log_le_log (by norm_num) (by norm_num)
  have hspan : Real.log (100 + 1 / 2 ^ 45) - Real.log 100 < 2 ^ ((2 : ℤ) - 52) := by
    rw [← Real.log_div (by norm_num) (by norm_num)]
    have := Real.log_le_sub_one_of_pos (x := ((100 : ℝ) + 1 / 2 ^ 45) / 100) (by norm_num)
    calc Real.log ((100 + 1 / 2 ^ 45) / 100) ≤ (100 + 1 / 2 ^ 45) / 100 - 1 := this
      _ < 2 ^ ((2 : ℤ) - 52) := by norm_num
  have hc := roundHalfEven_collide (Real.log 100 / 2 ^ ((2 : ℤ) - 52))
    (Real.log (100 + 1 / 2 ^ 46) / 2 ^ ((2 : ℤ) - 52))
    (Real.log (100 + 1 / 2 ^ 45) / 2 ^ ((2 : ℤ) - 52))
    (div_le_div_of_nonneg_right m1 hu.le) (div_le_div_of_nonneg_right m2 hu.le)
    (by rw [← sub_div, div_lt_one hu]; exact hspan)
  rcases hc with h | h
  · left; rw [h]
  · right; rw [h]

/-! ### The reference notes in binary64 -/

theorem toBinary64_int (n : ℤ) (h : |n| < 2 ^ 53) : toBinary64 (n : ℝ) = fin (n : ℝ) := by
  have := toBinary64_multiple n 0 h (by norm_num) (by norm_num)
  rwa [zpow_zero, mul_one] at this

theorem two_rpow_le (p n : ℕ) (x : ℝ) (hn : n ≠ 0) (hx : 0 ≤ x) (h : (2 : ℝ) ^ p ≤ x ^ n) :
    (2 : ℝ) ^ ((p : ℝ) / (n : ℝ)) ≤ x := by
  have hpow : ((2 : ℝ) ^ ((p : ℝ) / (n : ℝ))) ^ n = 2 ^ p := by
    rw [← Real.rpow_natCast, ← Real.rpow_mul (by norm_num),
      div_mul_cancel₀ _ (Nat.cast_ne_zero.mpr hn), Real.rpow_natCast]
  exact le_of_pow_le_pow_left₀ hn hx (by rw [hpow]; exact h)

theorem le_two_rpow (p n : ℕ) (x : ℝ) (hn : n ≠ 0) (h : x ^ n ≤ (2 : ℝ) ^ p) :
    x ≤ (2 : ℝ) ^ ((p : ℝ) / (n : ℝ)) := by
  have hpow : ((2 : ℝ) ^ ((p : ℝ) / (n : ℝ))) ^ n = 2 ^ p := by
    rw [← Real.rpow_natCast, ← Real.rpow_mul (by norm_num),
      div_mul_cancel₀ _ (Nat.cast_ne_zero.mpr hn), Real.rpow_natCast]
  exact le_of_pow_le_pow_left₀ hn (Real.rpow_pos_of_pos (by norm_num) _).le
    (by rw [hpow]; exact h)

theorem halfSteps64_440 : halfSteps64 (fin 440.0) = fin 57 := by
  unfold halfSteps64
  dsimp only
  rw [c0_binary64, fin_div_fin _ _ (by norm_num), round64_fin]
  obtain ⟨q, hq, hq1, hq2⟩ := toBinary64_between
    ((440.0 : ℝ) / (2301057934609613 / 2 ^ 47)) 4 7459086882832384 7599824371187712
    (by norm_num) (by norm_num)
    (by rw [abs_of_pos (by norm_num)]; norm_num)
    (by rw [abs_of_pos (by norm_num)]; norm_num)
    (by norm_num) (by norm_num)
  norm_num at hq1 hq2
  have hqpos : 0 < q := by linarith
  rw [hq]
  show Math.round (round64 (fin 12 * round64 (Math.logWith (Real.logb 2) (fin q)))) = _
  rw [logWith_pos _ _ hqpos, round64_fin]
  have hl1 : (151 : ℝ) / 32 ≤ Real.logb 2 q := by
    rw [Real.le_logb_iff_rpow_le one_lt_two hqpos]
    have := two_rpow_le 151 32 (53 / 2) (by norm_num) (by norm_num) (by norm_num)
    norm_num at this ⊢
    linarith
  have hl2 : Real.logb 2 q ≤ (153 : ℝ) / 32 := by
    rw [Real.logb_le_iff_le_rpow one_lt_two hqpos]
    have := le_two_rpow 153 32 27 (by norm_num) (by norm_num)
    norm_num at this ⊢
    linarith
  obtain ⟨l, hl, hl3, hl4⟩ := toBinary64_between (Real.logb 2 q) 2
    5312840185413632 5383208929591296 (by norm_num) (by norm_num)
    (by rw [abs_of_pos (by linarith)]; norm_num; linarith)
    (by rw [abs_of_pos (by linarith)]; norm_num; linarith)
    (by norm_num; linarith) (by norm_num; linarith)
  norm_num at hl3 hl4
  rw [hl, fin_mul_fin, round64_fin]
  obtain ⟨p, hp, hp1, hp2⟩ := toBinary64_between (12 * l) 5
    7969260278120448 8074813394386944 (by norm_num) (by norm_num)
    (by rw [abs_of_pos (by linarith)]; norm_num; linarith)
    (by rw [abs_of_pos (by linarith)]; norm_num; linarith)
    (by norm_num; linarith) (by norm_num; linarith)
  norm_num at hp1 hp2
  rw [hp, round_fin]
  congr 1
  rw [Int.floor_eq_iff]
  constructor
  · push_cast; linarith
  · push_cast; linarith

/-- The last lines of `getNote` in binary64 when the quotient `h / 12` is a binary64 value
with floor `o`. -/
theorem getNote64_of_halfSteps (frequency : JSNum) (h o : ℤ)
    (hh : halfSteps64 frequency = fin h)
    (hq : toBinary64 ((h : ℝ) / 12) = fin ((h : ℝ) / 12)) (ho : ⌊(h : ℝ) / 12⌋ = o) :
    getNote64 frequency = plus (notesAt (rem (fin h) (fin 12))) (fin o) := by
  unfold getNote64
  dsimp only
  rw [hh]
  show plus _ (Math.floor (round64 (fin (h : ℝ) / fin 12))) = _
  rw [fin_div_fin _ _ (by norm_num), round64_fin, hq]
  show plus _ (fin ⌊(h : ℝ) / 12⌋) = _
  rw [ho]

theorem getNote64_440 : getNote64 (fin 440.0) = NoteValue.str "A4" := by
  have hq : toBinary64 (((57 : ℤ) : ℝ) / 12) = fin (((57 : ℤ) : ℝ) / 12) := by
    have := toBinary64_multiple 19 (-2) (by norm_num) (by norm_num) (by norm_num)
    have e : ((19 : ℤ) : ℝ) * 2 ^ (-2 : ℤ) = ((57 : ℤ) : ℝ) / 12 := by norm_num
    rwa [e] at this
  rw [getNote64_of_halfSteps _ 57 4 halfSteps64_440 hq
    (by rw [floor_div_twelve]; rfl)]
  decide

theorem literal_261_6 : toBinary64 261.6 = fin (2301057934609613 / 2 ^ 43) := by
  have h := toBinary64_eq 261.6 8 4602115869219226 (by norm_num) (by norm_num)
    (by rw [abs_of_pos (by norm_num)]; norm_num)
    (by rw [abs_of_pos (by norm_num)]; norm_num)
    (by rw [abs_lt]; constructor <;> norm_num)
  rw [h]
  norm_num

theorem halfSteps64_261_6 : halfSteps64 (toBinary64 261.6) = fin 48 := by
  unfold halfSteps64
  dsimp only
  rw [literal_261_6, c0_binary64, fin_div_fin _ _ (by norm_num), round64_fin,
    show ((2301057934609613 : ℝ) / 2 ^ 43) / (2301057934609613 / 2 ^ 47) = ((16 : ℤ) : ℝ) by
      norm_num,
    toBinary64_int 16 (by norm_num)]
  show Math.round (round64 (fin 12 * round64 (Math.logWith (Real.logb 2) (fin _)))) = _
  have hlog : Real.logb 2 ((16 : ℤ) : ℝ) = ((4 : ℤ) : ℝ) := by
    rw [show (((16 : ℤ) : ℝ)) = (2 : ℝ) ^ (4 : ℕ) by norm_num, Real.logb_pow,
      Real.logb_self_eq_one one_lt_two]
    norm_num
  rw [logWith_pos _ _ (by norm_num), hlog, round64_fin, toBinary64_int 4 (by norm_num),
    fin_mul_fin, round64_fin,
    show (12 : ℝ) * ((4 : ℤ) : ℝ) = ((48 : ℤ) : ℝ) by norm_num,
    toBinary64_int 48 (by norm_num), round_fin]
  congr 1
  rw [Int.floor_eq_iff]
  constructor <;> norm_num

theorem getNote64_261_6 : getNote64 (toBinary64 261.6) = NoteValue.str "C4" := by
  have hq : toBinary64 (((48 : ℤ) : ℝ) / 12) = fin (((48 : ℤ) : ℝ) / 12) := by
    have := toBinary64_int 4 (by norm_num)
    have e : ((4 : ℤ) : ℝ) = ((48 : ℤ) : ℝ) / 12 := by norm_num
    rwa [e] at this
  rw [getNote64_of_halfSteps _ 48 4 halfSteps64_261_6 hq
    (by rw [floor_div_twelve]; rfl)]
  decide

theorem halfSteps64_16_35 : halfSteps64 (toBinary64 16.35) = fin 0 := by
  unfold halfSteps64
  dsimp only
  rw [c0_binary64, fin_div_fin _ _ (by norm_num), round64_fin,
    show ((2301057934609613 : ℝ) / 2 ^ 47) / (2301057934609613 / 2 ^ 47) = ((1 : ℤ) : ℝ) by
      norm_num,
    toBinary64_int 1 (by norm_num)]
  show Math.round (round64 (fin 12 * round64 (Math.logWith (Real.logb 2) (fin _)))) = _
  rw [logWith_pos _ _ (by norm_num), Int.cast_one, Real.logb_one, round64_fin, toBinary64_zero,
    fin_mul_fin, mul_zero, round64_fin, toBinary64_zero, round_fin]
  congr 1
  rw [Int.floor_eq_iff]
  constructor <;> norm_num

theorem getNote64_16_35 : getNote64 (toBinary64 16.35) = NoteValue.str "C0" := by
  have hq : toBinary64 (((0 : ℤ) : ℝ) / 12) = fin (((0 : ℤ) : ℝ) / 12) := by
    rw [Int.cast_zero, zero_div, toBinary64_zero]
  rw [getNote64_of_halfSteps _ 0 0 halfSteps64_16_35 hq
    (by rw [floor_div_twelve]; rfl)]
  decide

/-! ### The loudness of the two scenario frames in binary64 -/

theorem sum64_half (n : Nat) (hn : n ≤ 30) :
    (List.replicate n (0.5 : ℝ)).foldl
        (fun sum x => round64 (sum + round64 (fin x * fin x))) (fin 0) =
      fin ((n : ℝ) / 4) := by
  induction n with
  | zero => simp
  | succ k ih =>
    have hsq : round64 (fin (0.5 : ℝ) * fin 0.5) = fin (1 / 4) := by
      rw [fin_mul_fin, round64_fin]
      have := toBinary64_multiple 1 (-2) (by norm_num) (by norm_num) (by norm_num)
      have e : ((1 : ℤ) : ℝ) * 2 ^ (-2 : ℤ) = 0.5 * 0.5 := by norm_num
      rw [e] at this
      rw [this]
      norm_num
    rw [List.replicate_succ', List.foldl_append, ih (by omega), List.foldl_cons, List.foldl_nil,
      hsq, fin_add_fin, round64_fin]
    have hm : |((k + 1 : ℕ) : ℤ)| < 2 ^ 53 := by
      rw [abs_of_nonneg (by positivity)]
      have : ((k + 1 : ℕ) : ℤ) ≤ 30 := by exact_mod_cast hn
      omega
    have h := toBinary64_multiple ((k + 1 : ℕ) : ℤ) (-2) hm (by norm_num) (by norm_num)
    have e : ((((k + 1 : ℕ) : ℤ)) : ℝ) * 2 ^ (-2 : ℤ) = (k : ℝ) / 4 + 1 / 4 := by
      push_cast
      norm_num
      ring
    rw [e] at h
    rw [h]
    congr 1
    push_cast
    ring

theorem calculateRMS64_half : calculateRMS64 (List.replicate 30 0.5) = fin 0.5 := by
  unfold calculateRMS64
  dsimp only
  rw [sum64_half 30 le_rfl, List.length_replicate, fin_div_fin _ _ (by norm_num), round64_fin]
  have h4 : toBinary64 (((30 : ℕ) : ℝ) / 4 / ((30 : ℕ) : ℝ)) = fin ((1 / 2) ^ 2) := by
    have := toBinary64_multiple 1 (-2) (by norm_num) (by norm_num) (by norm_num)
    have e : ((1 : ℤ) : ℝ) * 2 ^ (-2 : ℤ) = ((30 : ℕ) : ℝ) / 4 / ((30 : ℕ) : ℝ) := by norm_num
    rw [e] at this
    rw [this]
    norm_num
  rw [h4, sqrt_fin _ (by norm_num), Real.sqrt_sq (by norm_num), round64_fin]
  have := toBinary64_multiple 1 (-1) (by norm_num) (by norm_num) (by norm_num)
  have e : ((1 : ℤ) : ℝ) * 2 ^ (-1 : ℤ) = 1 / 2 := by norm_num
  rw [e] at this
  rw [this]
  norm_num

/-- The bounds `77 / 256 < log10 2 < 617 / 2048`. -/
theorem logb_ten_two_dyadic :
    (77 : ℝ) / 256 < Real.logb 10 2 ∧ Real.logb 10 2 < 617 / 2048 := by
  have h10 : (0 : ℝ) < Real.log 10 := Real.log_pos (by norm_num)
  have h1 : (77 : ℝ) * Real.log 10 < 256 * Real.log 2 := by
    have := Real.log_lt_log (x := (10 : ℝ) ^ 77) (y := (2 : ℝ) ^ 256) (by positivity)
      (by norm_num)
    rwa [Real.log_pow, Real.log_pow] at this
  have h2 : (2048 : ℝ) * Real.log 2 < 617 * Real.log 10 := by
    have := Real.log_lt_log (x := (2 : ℝ) ^ 2048) (y := (10 : ℝ) ^ 617) (by positivity)
      (by norm_num)
    rwa [Real.log_pow, Real.log_pow] at this
  have e : Real.log 2 = Real.logb 10 2 * Real.log 10 := by
    rw [← Real.log_div_log, div_mul_cancel₀ _ h10.ne.symm]
  rw [e] at h1 h2
  constructor
  · exact lt_of_mul_lt_mul_right (by linarith) h10.le
  · exact lt_of_mul_lt_mul_right (by linarith) h10.le

theorem loudness64_half :
    ∃ p : ℝ, loudness64 (List.replicate 30 0.5) = fin p ∧
      -6.025390625 ≤ p ∧ p ≤ -6.015625 := by
  have hb := logb_ten_two_dyadic
  unfold loudness64
  dsimp only
  rw [calculateRMS64_half]
  show ∃ p : ℝ, round64 (fin 20 * round64 (Math.logWith (Real.logb 10) (fin 0.5))) = fin p ∧ _
  rw [logWith_pos _ _ (by norm_num), logb_ten_half, round64_fin]
  obtain ⟨r, hr, hr1, hr2⟩ := toBinary64_between (-Real.logb 10 2) (-2)
    (-5427189394702336) (-5418393301680128) (by norm_num) (by norm_num)
    (by rw [abs_neg, abs_of_pos (by linarith)]; norm_num; linarith)
    (by rw [abs_neg, abs_of_pos (by linarith)]; norm_num; linarith)
    (by norm_num; linarith) (by norm_num; linarith)
  norm_num at hr1 hr2
  rw [hr, fin_mul_fin, round64_fin]
  obtain ⟨p, hp, hp1, hp2⟩ := toBinary64_between (20 * r) 2
    (-6783986743377920) (-6772991627100160) (by norm_num) (by norm_num)
    (by rw [abs_of_neg (by linarith)]; norm_num; linarith)
    (by rw [abs_of_neg (by linarith)]; norm_num; linarith)
    (by norm_num; linarith) (by norm_num; linarith)
  norm_num at hp1 hp2
  exact ⟨p, hp, by norm_num; linarith, by norm_num; linarith⟩

theorem sum64_zero (n : Nat) :
    (List.replicate n (0 : ℝ)).foldl
        (fun sum x => round64 (sum + round64 (fin x * fin x))) (fin 0) = fin 0 := by
  induction n with
  | zero => simp
  | succ k ih =>
    rw [List.replicate_succ', List.foldl_append, ih, List.foldl_cons, List.foldl_nil,
      fin_mul_fin, mul_zero, round64_fin, toBinary64_zero, fin_add_fin, add_zero, round64_fin,
      toBinary64_zero]

theorem calculateRMS64_zero (n : Nat) (hn : 0 < n) :
    calculateRMS64 (List.replicate n 0) = fin 0 := by
  unfold calculateRMS64
  dsimp only
  rw [sum64_zero, List.length_replicate,
    fin_div_fin _ _ (Nat.cast_ne_zero.mpr hn.ne.symm), zero_div, round64_fin, toBinary64_zero,
    sqrt_fin _ le_rfl, Real.sqrt_zero, round64_fin, toBinary64_zero]

theorem loudness64_zero (n : Nat) (hn : 0 < n) :
    loudness64 (List.replicate n 0) = negInf := by
  unfold loudness64
  dsimp only
  rw [calculateRMS64_zero n hn]
  show round64 (fin 20 * round64 (Math.logWith (Real.logb 10) (fin 0))) = negInf
  rw [logWith_zero]
  show round64 (signedInf (-20)) = negInf
  unfold signedInf
  rw [if_neg (by norm_num), if_pos (by norm_num)]
  rfl

end Binary64

/-! ## The checked properties -/

section Claims

open JSVal

/-- C1. Loudness gate of `updatePitch`: when the loudness reading of the frame is
`<= -40` (the reading `-40` itself and the reading `-Infinity` included), the tick
appends an absent sample (pitch `null`) to the window and sets the current pitch
and clarity to `0`, and the resulting state is the same for any two estimators. -/
theorem loudness_gate (fp1 fp2 : Estimator) (sr : JSNum) (t0 : ℝ) (st : State)
    (input : List ℝ) (now : ℝ) (h : le (loudness input) (fin (-40))) :
    (updatePitch fp1 sr t0 st input now).graphData =
        pushSample st.graphData { time := fin ((now - t0) / 1000), pitch := none } ∧
      (updatePitch fp1 sr t0 st input now).pitch = fin 0 ∧
      (updatePitch fp1 sr t0 st input now).clarity = fin 0 ∧
      updatePitch fp1 sr t0 st input now = updatePitch fp2 sr t0 st input now ∧
      le (fin (-40) : JSNum) (fin (-40)) ∧ le (negInf : JSNum) (fin (-40)) := by
  have hq := not_gt_of_le _ _ h
  rw [updatePitch_quiet fp1 sr t0 st input now hq, updatePitch_quiet fp2 sr t0 st input now hq]
  refine ⟨?_, ?_, ?_, ?_, le_refl (-40 : ℝ), trivial⟩ <;> dsimp only

/-- Witness of C1: the all-zero frame of two samples, whose reading is `-Infinity`,
with two estimators that disagree. -/
theorem loudness_gate_witness :
    le (loudness [0, 0]) (fin (-40)) ∧
      (updatePitch (fun _ _ => (fin 440, fin 1)) (fin 44100) 0 initialState [0, 0] 50).graphData =
        pushSample [] { time := fin ((50 - 0) / 1000), pitch := none } ∧
      updatePitch (fun _ _ => (fin 440, fin 1)) (fin 44100) 0 initialState [0, 0] 50 =
        updatePitch (fun _ _ => (nan, nan)) (fin 44100) 0 initialState [0, 0] 50 :=
  have h : le (loudness [0, 0]) (fin (-40)) := by
    rw [show ([0, 0] : List ℝ) = List.replicate 2 0 from rfl,
      loudness_replicate_zero 2 (by decide)]
    trivial
  ⟨h,
    (loudness_gate (fun _ _ => (fin 440, fin 1)) (fun _ _ => (nan, nan)) (fin 44100) 0
      initialState [0, 0] 50 h).1,
    (loudness_gate (fun _ _ => (fin 440, fin 1)) (fun _ _ => (nan, nan)) (fin 44100) 0
      initialState [0, 0] 50 h).2.2.2.1⟩

/-- C2. Clarity gate of `updatePitch`: for a frame whose loudness reading is
`> -40` and an estimator result `(frequency, clarity)`, the appended sample carries
the frequency of the estimator, unchanged, when `clarity > 0.9`, and is absent
(pitch `null`) otherwise, in particular when `clarity <= 0.9`; so the appended
sample is present if and only if `clarity > 0.9`. -/
theorem clarity_gate (fp : Estimator) (sr : JSNum) (t0 : ℝ) (st : State)
    (input : List ℝ) (now : ℝ) (h : gt (loudness input) (fin (-40))) :
    (gt (fp input sr).2 (fin 0.9) →
        (updatePitch fp sr t0 st input now).graphData =
          pushSample st.graphData
            { time := fin ((now - t0) / 1000), pitch := some (fp input sr).1 }) ∧
      (¬ gt (fp input sr).2 (fin 0.9) →
        (updatePitch fp sr t0 st input now).graphData =
          pushSample st.graphData { time := fin ((now - t0) / 1000), pitch := none }) ∧
      (le (fp input sr).2 (fin 0.9) →
        (updatePitch fp sr t0 st input now).graphData =
          pushSample st.graphData { time := fin ((now - t0) / 1000), pitch := none }) ∧
      ((updatePitch fp sr t0 st input now).graphData.getLast?.map Sample.pitch =
          some (some (fp input sr).1) ↔ gt (fp input sr).2 (fin 0.9)) ∧
      le (fin 0.9 : JSNum) (fin 0.9) := by
  refine ⟨fun hc => ?_, fun hc => ?_, fun hc => ?_, ?_, le_refl (0.9 : ℝ)⟩
  · rw [updatePitch_clear fp sr t0 st input now h hc]
  · rw [updatePitch_unclear fp sr t0 st input now h hc]
  · rw [updatePitch_unclear fp sr t0 st input now h (not_gt_of_le _ _ hc)]
  · by_cases hc : gt (fp input sr).2 (fin 0.9)
    · rw [updatePitch_clear fp sr t0 st input now h hc]
      simp only [pushSample_getLast, Option.map_some', hc]
    · rw [updatePitch_unclear fp sr t0 st input now h hc]
      simp only [pushSample_getLast, Option.map_some', hc, iff_false]
      intro hcontra
      cases hcontra

/-- Witness of C2: the one-sample frame `[1]`, whose reading is `0`, and an estimator
that answers `440` with clarity `0.95`. -/
theorem clarity_gate_witness :
    gt (loudness [1]) (fin (-40)) ∧
      (updatePitch (fun _ _ => (fin 440, fin 0.95)) (fin 44100) 0 initialState [1] 50).graphData =
        pushSample [] { time := fin ((50 - 0) / 1000), pitch := some (fin 440) } :=
  have h : gt (loudness [1]) (fin (-40)) := by
    rw [loudness_one]
    show (-40 : ℝ) < 0
    norm_num
  ⟨h,
    (clarity_gate (fun _ _ => (fin 440, fin 0.95)) (fin 44100) 0 initialState [1] 50 h).1
      (show (0.9 : ℝ) < 0.95 by norm_num)⟩

/-- C3. Rolling sample window: every call of `updatePitch` replaces the window by the
old window with one sample appended and cut to its last 200 elements.  For every
window `w` and sample `s` the result has length `min (|w| + 1) 200`, ends with `s`, is a
suffix of `w ++ [s]` (so the retained samples keep their order), loses exactly the
oldest element `w[0]` when `|w| = 200`, and loses nothing when `|w| < 200`; starting from
the empty window the length after `n` ticks is `min n 200`, hence at most 200. -/
theorem window_push :
    (∀ (fp : Estimator) (sr : JSNum) (t0 : ℝ) (st : State) (input : List ℝ) (now : ℝ),
        ∃ s : Sample, (updatePitch fp sr t0 st input now).graphData =
          (st.graphData ++ [s]).drop ((st.graphData ++ [s]).length - 200)) ∧
      (∀ (w : List Sample) (s : Sample),
        (pushSample w s).length = min (w.length + 1) 200 ∧
          (pushSample w s).getLast? = some s ∧
          pushSample w s <:+ w ++ [s] ∧
          (w.length = 200 → pushSample w s = w.tail ++ [s]) ∧
          (w.length < 200 → pushSample w s = w ++ [s])) ∧
      (∀ (fp : Estimator) (sr : JSNum) (t0 : ℝ) (ticks : List (List ℝ × ℝ)),
        (runTicks fp sr t0 initialState ticks).graphData.length = min ticks.length 200 ∧
          (runTicks fp sr t0 initialState ticks).graphData.length ≤ 200) := by
  refine ⟨fun fp sr t0 st input now => updatePitch_graphData fp sr t0 st input now,
    fun w s => ⟨pushSample_length w s, pushSample_getLast w s, List.drop_suffix _ _,
      fun h => ?_, fun h => pushSample_of_lt w s h⟩, fun fp sr t0 ticks => ?_⟩
  · rw [pushSample_of_ge w s (by omega), h, show 200 + 1 - 200 = 1 from rfl, List.drop_one]
  · have hlen := runTicks_length fp sr t0 ticks initialState (Nat.zero_le _)
    have h0 : initialState.graphData.length = 0 := rfl
    rw [h0, Nat.zero_add] at hlen
    exact ⟨hlen, by rw [hlen]; exact Nat.min_le_right _ _⟩

/-- Witness of C3: pushing on a full window of 200 absent samples evicts its head. -/
theorem window_push_witness :
    (List.replicate 200 ({ time := fin 0, pitch := none } : Sample)).length = 200 ∧
      pushSample (List.replicate 200 ({ time := fin 0, pitch := none } : Sample))
          { time := fin 1, pitch := some (fin 440) } =
        (List.replicate 200 ({ time := fin 0, pitch := none } : Sample)).tail ++
          [{ time := fin 1, pitch := some (fin 440) }] :=
  ⟨List.length_replicate _ _,
    (window_push.2.1 (List.replicate 200 { time := fin 0, pitch := none })
      { time := fin 1, pitch := some (fin 440) }).2.2.2.1 (List.length_replicate _ _)⟩

/-- C9, amended. Loudness estimator: the reading that `updatePitch` stores is
`20 * Math.log10(calculateRMS(frame))`, and `calculateRMS(frame)` is the square root of
the sum of the squared samples divided by their number.  Over real arithmetic a
non-empty frame whose samples all equal `A > 0` has RMS `A` and reading `20 * log10 A`.
Over real arithmetic and in binary64 alike, 30 samples of `0.5` have RMS `0.5` and a
reading within `0.01` of `-6.02` that passes the `-40` gate, and a non-empty all-zero
frame has RMS `0` and reading `-Infinity`. -/
theorem loudness_estimator :
    (∀ (fp : Estimator) (sr : JSNum) (t0 : ℝ) (st : State) (input : List ℝ) (now : ℝ),
        (updatePitch fp sr t0 st input now).decibel =
          fin 20 * Math.log10 (calculateRMS input)) ∧
      (∀ buffer : List ℝ, calculateRMS buffer =
        Math.sqrt (fin (buffer.map (fun x => x * x)).sum / fin (buffer.length : ℝ))) ∧
      (∀ (frame : List ℝ) (A : ℝ), frame ≠ [] → 0 < A → (∀ x ∈ frame, x = A) →
        calculateRMS frame = fin A ∧ loudness frame = fin (20 * Real.logb 10 A)) ∧
      (loudness (List.replicate 30 0.5) = fin (20 * Real.logb 10 0.5) ∧
        |20 * Real.logb 10 0.5 - (-6.02)| < 0.01 ∧
        gt (loudness (List.replicate 30 0.5)) (fin (-40))) ∧
      (∀ frame : List ℝ, frame ≠ [] → (∀ x ∈ frame, x = 0) →
        calculateRMS frame = fin 0 ∧ loudness frame = negInf) ∧
      (calculateRMS64 (List.replicate 30 0.5) = fin 0.5 ∧
        ∃ p : ℝ, loudness64 (List.replicate 30 0.5) = fin p ∧ |p - (-6.02)| < 0.01 ∧
          gt (loudness64 (List.replicate 30 0.5)) (fin (-40))) ∧
      (∀ frame : List ℝ, frame ≠ [] → (∀ x ∈ frame, x = 0) →
        calculateRMS64 frame = fin 0 ∧ loudness64 frame = negInf) := by
  have hb := logb_ten_two_bounds
  have hhalf : loudness (List.replicate 30 0.5) = fin (20 * Real.logb 10 0.5) :=
    loudness_replicate_pos 30 (by decide) 0.5 (by norm_num)
  refine ⟨fun fp sr t0 st input now => updatePitch_decibel fp sr t0 st input now,
    fun buffer => ?_, fun frame A hne hA hall => ?_, ⟨hhalf, ?_, ?_⟩, fun frame hne hall => ?_,
    ⟨calculateRMS64_half, ?_⟩, fun frame hne hall => ?_⟩
  · unfold calculateRMS
    dsimp only
    rw [sumSquares_eq, zero_add]
  · have hlen : 0 < frame.length := List.length_pos.mpr hne
    rw [uniform_frame frame A hall]
    exact ⟨calculateRMS_replicate _ hlen A hA.le, loudness_replicate_pos _ hlen A hA⟩
  · rw [logb_ten_half, abs_lt]
    constructor <;> linarith [hb.1, hb.2]
  · rw [hhalf, logb_ten_half]
    show (-40 : ℝ) < 20 * -Real.logb 10 2
    linarith [hb.2]
  · have hlen : 0 < frame.length := List.length_pos.mpr hne
    rw [uniform_frame frame 0 hall]
    exact ⟨calculateRMS_replicate _ hlen 0 le_rfl, loudness_replicate_zero _ hlen⟩
  · obtain ⟨p, hp, hp1, hp2⟩ := loudness64_half
    refine ⟨p, hp, ?_, ?_⟩
    · rw [abs_lt]
      constructor <;> linarith
    · rw [hp]
      show (-40 : ℝ) < p
      linarith
  · have hlen : 0 < frame.length := List.length_pos.mpr hne
    rw [uniform_frame frame 0 hall]
    exact ⟨calculateRMS64_zero _ hlen, loudness64_zero _ hlen⟩

/-- C9 as stated fails in binary64: the literal `0.9871792197227478` denotes the binary64
value `16562119 / 2 ^ 24`, which a `Float32Array` holds exactly; for the frame of 33
such samples `calculateRMS` returns `8891719932182527 / 2 ^ 53`, one unit in the last
place under the amplitude. -/
theorem calculateRMS64_not_exact :
    toBinary64 0.9871792197227478 = fin (16562119 / 2 ^ 24) ∧
      (0 : ℝ) < 16562119 / 2 ^ 24 ∧
      calculateRMS64 (List.replicate 33 (16562119 / 2 ^ 24)) =
        fin (8891719932182527 / 2 ^ 53) ∧
      calculateRMS64 (List.replicate 33 (16562119 / 2 ^ 24)) ≠ fin (16562119 / 2 ^ 24) := by
  refine ⟨?_, by norm_num, calculateRMS64_33, ?_⟩
  · have h := toBinary64_eq 0.9871792197227478 (-1) 8891719932182528 (by norm_num)
      (by norm_num)
      (by rw [abs_of_pos (by norm_num)]; norm_num)
      (by rw [abs_of_pos (by norm_num)]; norm_num)
      (by rw [abs_lt]; constructor <;> norm_num)
    rw [h]
    norm_num
  · rw [calculateRMS64_33]
    intro h
    injection h with h
    norm_num at h

/-- Witness of C9: the frame `[0.5, 0.5]` has RMS `0.5` and reading `20 * log10 0.5`. -/
theorem loudness_estimator_witness :
    calculateRMS [0.5, 0.5] = fin 0.5 ∧ loudness [0.5, 0.5] = fin (20 * Real.logb 10 0.5) :=
  loudness_estimator.2.2.1 [0.5, 0.5] 0.5 (List.cons_ne_nil _ _) (by norm_num)
    (fun x hx => by
      simp only [List.mem_cons, List.mem_singleton, List.mem_nil_iff, or_false, or_self] at hx
      exact hx)

/-- C4. Endpoints of `logScale`: with `C1 = cFrequencies[0] = 16.35 * 2`,
`C8 = cFrequencies[7] = 16.35 * 2 ^ 8` and both margins `20`, for every viewport
height `logScale(C1) = height - marginBottom` and `logScale(C8) = marginTop`. -/
theorem logScale_endpoints :
    cFrequenciesAt 0 = fin (16.35 * 2) ∧ cFrequenciesAt 7 = fin (16.35 * 2 ^ 8) ∧
      marginTop = 20 ∧ marginBottom = 20 ∧
      ∀ height : ℝ,
        logScale height (cFrequenciesAt 0) = fin (height - marginBottom) ∧
          logScale height (cFrequenciesAt 7) = fin marginTop := by
  refine ⟨by rw [cFrequenciesAt_zero, pow_one], cFrequenciesAt_seven, rfl, rfl, fun height => ?_⟩
  rw [cFrequenciesAt_zero, cFrequenciesAt_seven]
  exact ⟨logScale_floor height _ le_rfl, logScale_top height⟩

/-- C5, amended. Over real arithmetic `logScale` is strictly decreasing on `[C1, C8]`:
for every viewport height greater than `marginTop + marginBottom` and all
`C1 <= f1 < f2 <= C8`, `logScale(f1) > logScale(f2)`; and every frequency of `[C1, C8]`
is mapped into the pixel band `[marginTop, height - marginBottom]`. -/
theorem logScale_decreasing (height : ℝ) (hh : marginTop + marginBottom < height) :
    (∀ f1 f2 : ℝ, 16.35 * 2 ^ 1 ≤ f1 → f1 < f2 → f2 ≤ 16.35 * 2 ^ 8 →
        gt (logScale height (fin f1)) (logScale height (fin f2))) ∧
      (∀ f : ℝ, 16.35 * 2 ^ 1 ≤ f → f ≤ 16.35 * 2 ^ 8 →
        le (fin marginTop) (logScale height (fin f)) ∧
          le (logScale height (fin f)) (fin (height - marginBottom))) := by
  have hs := scale_neg height hh
  have hd := logSpan_pos
  constructor
  · intro f1 f2 h1 h12 h2
    have hf1 : 0 < f1 := lt_of_lt_of_le c1_pos h1
    rw [logScale_fin, logScale_fin, max_eq_left h1, max_eq_left (h1.trans h12.le)]
    show _ < _
    have hlog : Real.log f1 < Real.log f2 := Real.log_lt_log hf1 h12
    have := mul_lt_mul_of_neg_left hlog hs
    linarith
  · intro f h1 h2
    have hf : 0 < f := lt_of_lt_of_le c1_pos h1
    rw [logScale_fin, max_eq_left h1]
    have hlo : 0 ≤ Real.log f - Real.log (16.35 * 2 ^ 1) :=
      sub_nonneg.mpr (Real.log_le_log c1_pos h1)
    have hhi : Real.log f - Real.log (16.35 * 2 ^ 1) ≤
        Real.log (16.35 * 2 ^ 8) - Real.log (16.35 * 2 ^ 1) :=
      sub_le_sub_right (Real.log_le_log hf h2) _
    have hmul := mul_le_mul_of_nonpos_left hhi hs.le
    rw [div_mul_cancel₀ _ hd.ne.symm] at hmul
    have hle := mul_nonpos_of_nonpos_of_nonneg hs.le hlo
    constructor
    · show marginTop ≤ _
      linarith
    · show _ ≤ height - marginBottom
      linarith

/-- C5 as stated fails in binary64: at height 500, of the three neighbouring binary64
frequencies `100`, `100 + 2 ^ (-46)` and `100 + 2 ^ (-45)`, which lie in `[C1, C8]`, two
neighbours have the same rounded logarithm and so the same pixel; the decrease is not
strict. -/
theorem logScale64_not_strict :
    marginTop + marginBottom < 500 ∧ (16.35 : ℝ) * 2 ^ 1 ≤ 100 ∧
      (100 + 1 / 2 ^ 45 : ℝ) ≤ 16.35 * 2 ^ 8 ∧
      ¬ (gt (logScale64 500 (fin 100)) (logScale64 500 (fin (100 + 1 / 2 ^ 46))) ∧
        gt (logScale64 500 (fin (100 + 1 / 2 ^ 46)))
          (logScale64 500 (fin (100 + 1 / 2 ^ 45)))) := by
  refine ⟨by unfold marginTop marginBottom; norm_num, by norm_num, by norm_num, ?_⟩
  rintro ⟨h1, h2⟩
  rcases roundedLog_collide with h | h
  · have e := logScale64_congr 500 (fin 100) (fin (100 + 1 / 2 ^ 46))
      (by rw [roundedLog_above 100 (by norm_num),
        roundedLog_above (100 + 1 / 2 ^ 46) (by norm_num), h])
    rw [e] at h1
    exact gt_irrefl _ h1
  · have e := logScale64_congr 500 (fin (100 + 1 / 2 ^ 46)) (fin (100 + 1 / 2 ^ 45))
      (by rw [roundedLog_above (100 + 1 / 2 ^ 46) (by norm_num),
        roundedLog_above (100 + 1 / 2 ^ 45) (by norm_num), h])
    rw [e] at h2
    exact gt_irrefl _ h2

/-- Witness of C5: the viewport of height 500 and the frequencies 100 < 200. -/
theorem logScale_decreasing_witness :
    marginTop + marginBottom < 500 ∧ gt (logScale 500 (fin 100)) (logScale 500 (fin 200)) :=
  have hh : marginTop + marginBottom < 500 := by
    show (20 : ℝ) + 20 < 500
    norm_num
  ⟨hh, (logScale_decreasing 500 hh).1 100 200 (by norm_num) (by norm_num) (by norm_num)⟩

/-- C6, amended. `logScale` clamps at the floor: for every viewport height and every
frequency `f <= C1` (zero and negative values included)
`logScale(f) = logScale(C1) = height - marginBottom`; for a viewport at least as high as
the two margins together (the component uses 600 and 500) no input, finite or not, is
mapped under the `C1` line; and the logarithm of the last line is taken at
`Math.max(value, C1)`, which is never `<= 0`. -/
theorem logScale_clamp :
    (∀ height f : ℝ, f ≤ 16.35 * 2 ^ 1 →
        logScale height (fin f) = logScale height (cFrequenciesAt 0) ∧
          logScale height (fin f) = fin (height - marginBottom)) ∧
      logScale 500 (fin 0) = fin 480 ∧ logScale 600 (fin (-1)) = fin 580 ∧
      (∀ (height : ℝ) (value : JSNum), marginTop + marginBottom ≤ height →
        ¬ gt (logScale height value) (fin (height - marginBottom))) ∧
      (∀ (height : ℝ) (value : JSNum),
        logScale height value =
          fin (height - marginBottom) +
            fin ((marginTop - (height - marginBottom)) /
                (Real.log (16.35 * 2 ^ 8) - Real.log (16.35 * 2 ^ 1))) *
              (Math.log (logScaleArg value) - fin (Real.log (16.35 * 2 ^ 1)))) ∧
      (∀ value : JSNum, ¬ le (logScaleArg value) (fin 0)) ∧
      (∀ f : ℝ, logScaleArg (fin f) = fin (max f (16.35 * 2 ^ 1)) ∧
        0 < max f (16.35 * 2 ^ 1)) := by
  refine ⟨fun height f hf => ?_, ?_, ?_, fun height value hh => logScale_not_under height hh value,
    logScale_unfold, logScaleArg_not_le_zero, fun f => ⟨logScaleArg_fin f, logScaleArg_pos f⟩⟩
  · rw [cFrequenciesAt_zero, logScale_floor height f hf, logScale_floor height _ le_rfl]
    exact ⟨rfl, rfl⟩
  · rw [logScale_floor 500 0 (by norm_num)]
    congr 1
    show (500 : ℝ) - 20 = 480
    norm_num
  · rw [logScale_floor 600 (-1) (by norm_num)]
    congr 1
    show (600 : ℝ) - 20 = 580
    norm_num

/-- C6 as stated fails for a viewport lower than the two margins together: at height 0
the pixel of 440 Hz is greater than `height - marginBottom`, under the line of `C1`. -/
theorem logScale_under_at_height_zero :
    gt (logScale 0 (fin 440)) (fin (0 - marginBottom)) := by
  rw [logScale_fin]
  show (0 : ℝ) - marginBottom < _
  have hd := logSpan_pos
  have hmax : max (440 : ℝ) (16.35 * 2 ^ 1) = 440 := max_eq_left (by norm_num)
  have hlog : 0 < Real.log 440 - Real.log (16.35 * 2 ^ 1) :=
    sub_pos.mpr (Real.log_lt_log c1_pos (by norm_num))
  have hs : 0 < (marginTop - (0 - marginBottom)) /
      (Real.log (16.35 * 2 ^ 8) - Real.log (16.35 * 2 ^ 1)) :=
    div_pos (by unfold marginTop marginBottom; norm_num) hd
  rw [hmax]
  have := mul_pos hs hlog
  linarith

/-- Witness of C6: the viewport of height 500 and the frequency 0. -/
theorem logScale_clamp_witness :
    (0 : ℝ) ≤ 16.35 * 2 ^ 1 ∧ logScale 500 (fin 0) = fin (500 - marginBottom) :=
  have h0 : (0 : ℝ) ≤ 16.35 * 2 ^ 1 := by norm_num
  ⟨h0, (logScale_clamp.1 500 0 h0).2⟩

/-- C7, amended. Reference values of `getNote`, over real arithmetic and in binary64
alike: `getNote(440.0) = "A4"`, `getNote(261.6) = "C4"`, `getNote(16.35) = "C0"`; and,
over real arithmetic, for every frequency `f >= 16.35`, with
`h = Math.round(12 * log2(f / 16.35))`, `h` is not negative and `getNote(f)` is the
name of index `h mod 12` in the table of the 12 names followed by the decimal
`floor(h / 12)`. -/
theorem getNote_reference :
    getNote (fin 440.0) = NoteValue.str "A4" ∧
      getNote (fin 261.6) = NoteValue.str "C4" ∧
      getNote (fin 16.35) = NoteValue.str "C0" ∧
      getNote64 (fin 440.0) = NoteValue.str "A4" ∧
      getNote64 (toBinary64 261.6) = NoteValue.str "C4" ∧
      getNote64 (toBinary64 16.35) = NoteValue.str "C0" ∧
      ∀ (f : ℝ) (h : ℤ), 16.35 ≤ f → h = ⌊12 * Real.logb 2 (f / 16.35) + 1 / 2⌋ →
        halfSteps (fin f) = fin h ∧ 0 ≤ h ∧
          ∃ name, notes[(Int.fmod h 12).toNat]? = some name ∧
            getNote (fin f) = NoteValue.str (name ++ toString (Int.fdiv h 12)) := by
  refine ⟨?_, ?_, ?_, getNote64_440, getNote64_261_6, getNote64_16_35, fun f h hf hh => ?_⟩
  · rw [getNote_of_halfSteps _ 57 halfSteps_440]
    decide
  · rw [getNote_of_halfSteps _ 48 halfSteps_261_6]
    decide
  · rw [getNote_of_halfSteps _ 0 halfSteps_16_35]
    decide
  · have hfpos : 0 < f := lt_of_lt_of_le (by norm_num) hf
    have hhs : halfSteps (fin f) = fin h := by rw [halfSteps_pos f hfpos, hh]
    have hr : (1 : ℝ) ≤ f / 16.35 := by
      rw [le_div_iff₀ (by norm_num)]
      linarith
    have hlog : 0 ≤ Real.logb 2 (f / 16.35) := Real.logb_nonneg one_lt_two hr
    have h0 : 0 ≤ h := by
      rw [hh]
      exact Int.floor_nonneg.mpr (by linarith)
    have hmod0 : 0 ≤ h % 12 := Int.emod_nonneg h (by decide)
    have hmodlt : h % 12 < 12 := Int.emod_lt_of_pos h (by decide)
    obtain ⟨n, hn⟩ := Int.eq_ofNat_of_zero_le hmod0
    have hnlt : n < 12 := by omega
    obtain ⟨name, hname, hat⟩ := notesAt_of_lt n hnlt
    refine ⟨hhs, h0, name, ?_, ?_⟩
    · rw [Int.fmod_eq_emod h (by decide), hn, Int.toNat_ofNat]
      exact hname
    · rw [getNote_of_halfSteps _ h hhs, Int.tmod_eq_emod h0 (by decide), hn]
      show plus (notesAt (fin (Int.ofNat n))) _ = _
      rw [hat]
      rfl

/-- C7 as stated fails in binary64 next to a half-step boundary: the literal
`31.769094475722913` denotes the binary64 value `8942205127672737 / 2 ^ 48`, which is
`>= 16.35`; the real `h = round(12 * log2(f / 16.35))` is 12, for which the claim gives
the name of index 0, `C`, and the octave 1; in binary64 the half-step count is 11 and
`getNote` returns `"B0"`. -/
theorem getNote64_half_step_boundary :
    toBinary64 31.769094475722913 = fin (8942205127672737 / 2 ^ 48) ∧
      (16.35 : ℝ) ≤ 8942205127672737 / 2 ^ 48 ∧
      ⌊12 * Real.logb 2 ((8942205127672737 / 2 ^ 48 : ℝ) / 16.35) + 1 / 2⌋ = 12 ∧
      notes[(Int.fmod 12 12).toNat]? = some "C" ∧ Int.fdiv 12 12 = 1 ∧
      halfSteps64 (fin (8942205127672737 / 2 ^ 48)) = fin 11 ∧
      getNote64 (fin (8942205127672737 / 2 ^ 48)) = NoteValue.str "B0" ∧
      NoteValue.str "B0" ≠ NoteValue.str ("C" ++ toString (1 : ℤ)) := by
  refine ⟨?_, by norm_num, round_logb_eq _ (by norm_num) 12 (by norm_num) (by norm_num),
    by decide, by decide, halfSteps64_boundary, getNote64_boundary, by decide⟩
  have h := toBinary64_eq 31.769094475722913 4 8942205127672737 (by norm_num) (by norm_num)
    (by rw [abs_of_pos (by norm_num)]; norm_num)
    (by rw [abs_of_pos (by norm_num)]; norm_num)
    (by rw [abs_lt]; constructor <;> norm_num)
  rw [h]
  norm_num

/-- Witness of C7: the frequency 261.6, sixteen times `c0`, whose half-step count is 48. -/
theorem getNote_reference_witness :
    (16.35 : ℝ) ≤ 261.6 ∧ halfSteps (fin 261.6) = fin 48 ∧
      ∃ name, notes[(Int.fmod 48 12).toNat]? = some name ∧
        getNote (fin 261.6) = NoteValue.str (name ++ toString (Int.fdiv 48 12)) :=
  have hf : (16.35 : ℝ) ≤ 261.6 := by norm_num
  have hh : (48 : ℤ) = ⌊12 * Real.logb 2 ((261.6 : ℝ) / 16.35) + 1 / 2⌋ :=
    (round_logb_eq _ (by norm_num) 48 (by norm_num) (by norm_num)).symm
  ⟨hf, (getNote_reference.2.2.2.2.2.2 261.6 48 hf hh).1,
    (getNote_reference.2.2.2.2.2.2 261.6 48 hf hh).2.2⟩

/-- C8, the code at 15.5 Hz, a positive frequency under `c0`: the half-step count is
`-1`, the remainder `halfSteps % 12` is `-1` and not the modulo `11`, the lookup in the
table of names yields `undefined`, and `getNote` returns the number `NaN` instead of a
name followed by the octave `-1`. -/
theorem getNote_below_c0 :
    halfSteps (fin 15.5) = fin (-1) ∧
      rem (halfSteps (fin 15.5)) (fin 12) = fin (-1) ∧
      Int.fmod (-1) 12 = 11 ∧
      notesAt (rem (halfSteps (fin 15.5)) (fin 12)) = none ∧
      Math.floor (toNum (halfSteps (fin 15.5)) / fin 12) = fin (-1) ∧
      getNote (fin 15.5) = NoteValue.num nan := by
  have hfloor : Math.floor (toNum (fin (-1)) / fin 12) = fin (-1) := by
    show Math.floor (fin ((-1 : ℤ) : ℝ) / fin 12) = fin (-1)
    rw [fin_div_fin _ _ (by norm_num)]
    show fin ⌊((-1 : ℤ) : ℝ) / 12⌋ = fin (-1)
    rw [floor_div_twelve]
    rfl
  rw [getNote_of_halfSteps _ (-1) halfSteps_15_5, halfSteps_15_5]
  exact ⟨rfl, by decide, by decide, by decide, hfloor, by decide⟩

/-- C10, the code at the sentinel pitch `0`: the half-step count of `0` is `-Infinity`,
the index `-Infinity % 12` is `NaN` and selects no name, `getNote(0)` is the number
`NaN`, and the note text of the pitch label is exactly `getNote(pitch)`, so it is `NaN`
in the initial state and after every tick on a silent frame; no placeholder is
substituted. -/
theorem noteLabel_zero_pitch :
    halfSteps (fin 0) = negInf ∧
      rem (halfSteps (fin 0)) (fin 12) = nan ∧
      notesAt (rem (halfSteps (fin 0)) (fin 12)) = none ∧
      getNote (fin 0) = NoteValue.num nan ∧
      (∀ st : State, noteLabel st = getNote st.pitch) ∧
      noteLabel initialState = NoteValue.num nan ∧
      ∀ (fp : Estimator) (sr : JSNum) (t0 : ℝ) (st : State) (now : ℝ),
        (updatePitch fp sr t0 st [0, 0] now).pitch = fin 0 ∧
          noteLabel (updatePitch fp sr t0 st [0, 0] now) = NoteValue.num nan := by
  refine ⟨halfSteps_zero, by rw [halfSteps_zero]; rfl, by rw [halfSteps_zero]; rfl,
    getNote_zero, fun st => rfl, getNote_zero, fun fp sr t0 st now => ?_⟩
  have hq : ¬ gt (loudness [0, 0]) (fin (-40)) := by
    rw [show ([0, 0] : List ℝ) = List.replicate 2 0 from rfl,
      loudness_replicate_zero 2 (by decide)]
    exact fun hgt => hgt
  unfold noteLabel
  rw [updatePitch_quiet fp sr t0 st [0, 0] now hq]
  exact ⟨rfl, getNote_zero⟩

end Claims

end PitchDetector
